import Mathlib

/-!
Mapcrafter world cache: coordinate algebra and direct-mapped position cache.

A shallow embedding of `mapcraftercore/mc/pos.{h,cpp}` and
`mapcraftercore/mc/worldcache.{h,cpp}`.

Conventions of the embedding.

* A C++ `int` coordinate is an `Int`; where 32-bit overflow matters the
  arithmetic is wrapped explicitly (`wrapInt32`), and the conversion of an
  `int` to `uint32_t` is `toUInt32`.
* A `std::unique_ptr<Value>` / `Value*` is an `Option Value` (`none` is
  `nullptr`).
* `bool Get(key, Value** out)` returns `Option (Option Value)`: `none` is the
  `false` return (miss), `some v` is the `true` return with `*out = v`.
* `std::array<Bucket, kNumBuckets>` is a function on `Fin kNumBuckets`.
* The statistics counters are `int`s that are only written by `++` and never
  read by the cache. A field of `CacheStats` is the number of times `++` was
  applied to the counter; the `int` the counter holds is `counterValue` of
  it, and `CacheStats.held` is the struct of the six `int`s held.
* Methods that mutate `*this` take the state and return the new state.
* `world.h`, `region.h`, `chunk.h` and `util.h` are not among the sources:
  what the world cache uses of them is the structure `Collaborators` and the
  function `floordiv`.
-/

set_option autoImplicit false

namespace mapcrafter.mc

/-! ## pos.h / pos.cpp -/

/-- The class `RegionPos` of pos.h. -/
structure RegionPos where
  x : Int
  z : Int
deriving DecidableEq, Repr

/-- The class `ChunkPos` of pos.h. -/
structure ChunkPos where
  x : Int
  z : Int
deriving DecidableEq, Repr

/-- `RegionPos::operator==`: `x == other.x && z == other.z`. -/
instance instBEqRegionPos : BEq RegionPos :=
  ⟨fun a b => a.x == b.x && a.z == b.z⟩

/-- `ChunkPos::operator==`: `x == other.x && z == other.z`. -/
instance instBEqChunkPos : BEq ChunkPos :=
  ⟨fun a b => a.x == b.x && a.z == b.z⟩

instance instLawfulBEqRegionPos : LawfulBEq RegionPos where
  eq_of_beq := by
    intro a b h
    cases a; cases b
    simp only [BEq.beq, Bool.and_eq_true, decide_eq_true_eq] at h
    simp [h.1, h.2]
  rfl := by
    intro a
    simp [BEq.beq]

instance instLawfulBEqChunkPos : LawfulBEq ChunkPos where
  eq_of_beq := by
    intro a b h
    cases a; cases b
    simp only [BEq.beq, Bool.and_eq_true, decide_eq_true_eq] at h
    simp [h.1, h.2]
  rfl := by
    intro a
    simp [BEq.beq]

/-- The class `BlockPos` of pos.h. -/
structure BlockPos where
  x : Int
  z : Int
  y : Int
deriving DecidableEq, Repr

/-- The class `LocalBlockPos` of pos.h. -/
structure LocalBlockPos where
  x : Int
  z : Int
  y : Int
deriving DecidableEq, Repr

/-- The values of a C++ `int`: `[-2^31, 2^31)`. -/
def isInt32 (v : Int) : Prop := -2147483648 ≤ v ∧ v < 2147483648

instance instDecidableIsInt32 (v : Int) : Decidable (isInt32 v) := by
  unfold isInt32
  exact inferInstance

/-- The result of an `int` addition or subtraction whose exact value is `v`,
reduced to 32 bits in two's complement. -/
def wrapInt32 (v : Int) : Int := (v + 2147483648) % 4294967296 - 2147483648

/-- Modelled from the spec: `util::floordiv` is declared in `util.h`, which is
not among the sources; the spec has it divide rounding toward negative
infinity ("floor division, not truncation"). -/
def floordiv (a b : Int) : Int := Int.fdiv a b

/-- The constructor `ChunkPos::ChunkPos(const BlockPos& block)`. -/
def ChunkPos.ofBlockPos (block : BlockPos) : ChunkPos :=
  ⟨floordiv block.x 16, floordiv block.z 16⟩

/-- `ChunkPos::getRegion`. -/
def ChunkPos.getRegion (c : ChunkPos) : RegionPos :=
  ⟨floordiv c.x 32, floordiv c.z 32⟩

/-- `ChunkPos::getRow`: `z - x` in `int` arithmetic. -/
def ChunkPos.getRow (c : ChunkPos) : Int := wrapInt32 (c.z - c.x)

/-- `ChunkPos::getCol`: `x + z` in `int` arithmetic. -/
def ChunkPos.getCol (c : ChunkPos) : Int := wrapInt32 (c.x + c.z)

/-- `ChunkPos::byRowCol`: `ChunkPos((col - row) / 2, (col + row) / 2)`, with
the C++ division that truncates toward zero. -/
def ChunkPos.byRowCol (row col : Int) : ChunkPos :=
  ⟨Int.tdiv (wrapInt32 (col - row)) 2, Int.tdiv (wrapInt32 (col + row)) 2⟩

/-- The constructor `LocalBlockPos::LocalBlockPos(const BlockPos& pos)`:
`x(pos.x % 16), z(pos.z % 16), y(pos.y)` with the C++ remainder, then
`if (x < 0) x += 16; if (z < 0) z += 16;`. -/
def LocalBlockPos.ofBlockPos (pos : BlockPos) : LocalBlockPos :=
  let x := Int.tmod pos.x 16
  let z := Int.tmod pos.z 16
  let x := if x < 0 then x + 16 else x
  let z := if z < 0 then z + 16 else z
  ⟨x, z, pos.y⟩

/-- One pass through the loop body of `RegionPos::rotate`:
`int nx = -z, nz = x; x = nx; z = nz;`. -/
def RegionPos.rotateStep (p : RegionPos) : RegionPos :=
  ⟨wrapInt32 (-p.z), p.x⟩

/-- `RegionPos::rotate`: the loop `for (int i = 0; i < count; i++)` runs its
body `count` times, and not at all for `count ≤ 0`. -/
def RegionPos.rotate (count : Int) (p : RegionPos) : RegionPos :=
  Nat.iterate RegionPos.rotateStep count.toNat p

/-- One pass through the loop body of `ChunkPos::rotate`:
`int nx = 31 - z; z = x; x = nx;`. -/
def ChunkPos.rotateStep (p : ChunkPos) : ChunkPos :=
  ⟨wrapInt32 (31 - p.z), p.x⟩

/-- `ChunkPos::rotate`. -/
def ChunkPos.rotate (count : Int) (p : ChunkPos) : ChunkPos :=
  Nat.iterate ChunkPos.rotateStep count.toNat p

/-- `ChunkPos::getLocalX`: `x % 32 < 0 ? x % 32 + 32 : x % 32`, with the C++
remainder. -/
def ChunkPos.getLocalX (c : ChunkPos) : Int :=
  if Int.tmod c.x 32 < 0 then Int.tmod c.x 32 + 32 else Int.tmod c.x 32

/-- `ChunkPos::getLocalZ`. -/
def ChunkPos.getLocalZ (c : ChunkPos) : Int :=
  if Int.tmod c.z 32 < 0 then Int.tmod c.z 32 + 32 else Int.tmod c.z 32

/-- `LocalBlockPos::toGlobalPos`:
`BlockPos(x + chunk.x * 16, z + chunk.z * 16, y)` in `int` arithmetic. -/
def LocalBlockPos.toGlobalPos (l : LocalBlockPos) (chunk : ChunkPos) : BlockPos :=
  ⟨wrapInt32 (l.x + wrapInt32 (chunk.x * 16)), wrapInt32 (l.z + wrapInt32 (chunk.z * 16)), l.y⟩

/-- `BlockPos::operator==`: `x == other.x && z == other.z && y == other.y`. -/
def BlockPos.eq (a other : BlockPos) : Bool :=
  a.x == other.x && a.z == other.z && a.y == other.y

/-- `BlockPos::operator<`. -/
def BlockPos.lt (a other : BlockPos) : Bool :=
  if a.y = other.y then
    if a.x = other.x then decide (a.z < other.z)
    else decide (a.x > other.x)
  else decide (a.y < other.y)

/-! ### `RegionPos::byFilename` -/

/-- The C library function `isspace` in the "C" locale: the space and the
control characters 9 to 13 (tab, newline, vertical tab, form feed, carriage
return). -/
def isspace (c : Char) : Bool :=
  c = ' ' || c = Char.ofNat 9 || c = Char.ofNat 10 || c = Char.ofNat 11 ||
    c = Char.ofNat 12 || c = Char.ofNat 13

/-- The C library function `isdigit`: `'0'` to `'9'`. -/
def isdigit (c : Char) : Bool := decide ('0' ≤ c) && decide (c ≤ '9')

/-- The number a string of decimal digits denotes. -/
def digitsValue (ds : List Char) : Nat :=
  ds.foldl (fun acc c => acc * 10 + (c.toNat - 48)) 0

/-- The optional sign in front of the digits of a `%d` input item: whether
it is `-`, and the input after it. -/
def scanSign : List Char → Bool × List Char
  | c :: cs => if c = '-' then (true, cs) else if c = '+' then (false, cs) else (false, c :: cs)
  | [] => (false, [])

/-- The `int` that a `%d` conversion assigns when the number read is `v`:
`v` itself when it is representable, and `outOfRange v` otherwise. -/
def storeInt (outOfRange : Int → Int) (v : Int) : Int :=
  if isInt32 v then v else outOfRange v

/-- The conversion `%d` of `sscanf`, after the C standard: white space is
skipped, then the longest optionally signed sequence of decimal digits is
read; with no digit the conversion fails. The result is the `int` assigned
and the unread input. For a number that is not representable as an `int`
the standard leaves the behaviour undefined and C libraries differ in what
they store: the value assigned then is `outOfRange` of the number read, a
parameter about which nothing is assumed. -/
def scanInt (outOfRange : Int → Int) (input : List Char) : Option (Int × List Char) :=
  let signed := scanSign (input.dropWhile isspace)
  let ds := signed.2.takeWhile isdigit
  if ds = [] then none
  else
    some (storeInt outOfRange
        (if signed.1 then -(digitsValue ds : Int) else (digitsValue ds : Int)),
      signed.2.dropWhile isdigit)

/-- An ordinary character of a `sscanf` format: the next input character
must be that character. -/
def scanChar (c : Char) : List Char → Option (List Char)
  | d :: cs => if d = c then some cs else none
  | [] => none

/-- The characters `std::string::c_str()` shows to a C function: those before
the first NUL. -/
def c_str (name : List Char) : List Char := name.takeWhile (fun c => c ≠ Char.ofNat 0)

/-- The library call `sscanf(name.c_str(), "r.%d.%d.mca", &x, &z)`: `some (x, z)`
when it returns `2`, that is when both conversions were assigned, and
`none` for every other return value (`0`, `1` or `EOF`), which the caller
does not tell apart. The directives after the second `%d` cannot change the
return value. The parameter `outOfRange` is that of `scanInt`. -/
def sscanf_r_d_d_mca (outOfRange : Int → Int) (name : List Char) : Option (Int × Int) :=
  match scanChar 'r' (c_str name) with
  | none => none
  | some s1 =>
    match scanChar '.' s1 with
    | none => none
    | some s2 =>
      match scanInt outOfRange s2 with
      | none => none
      | some (x, s3) =>
        match scanChar '.' s3 with
        | none => none
        | some s4 =>
          match scanInt outOfRange s4 with
          | none => none
          | some (z, _) => some (x, z)

/-- `RegionPos::byFilename`. The macro `BOOST_FS_FILENAME` (util.h, not among
the sources), which gives the last component of a `boost::filesystem` path
as a string, is a parameter, and so is `outOfRange`, what `sscanf` stores for
a number outside the `int` range. A `std::runtime_error` is `Except.error`
with its message. -/
def RegionPos.byFilename (outOfRange : Int → Int) (BOOST_FS_FILENAME : List Char → List Char)
    (filename : List Char) : Except String RegionPos :=
  let name := BOOST_FS_FILENAME filename
  match sscanf_r_d_d_mca outOfRange name with
  | none => Except.error ("Invalid filename " ++ String.mk name ++ "!")
  | some (x, z) => Except.ok ⟨x, z⟩

/-- In the words of the C standard: `t` begins with a `%d` input item that
assigns `v` and leaves `r` unread. The item is optional white space `ws`, an
optional sign `sg` and one or more digits `ds`, and `r` does not begin with
a digit. -/
def IsIntItem (outOfRange : Int → Int) (t : List Char) (v : Int) (r : List Char) : Prop :=
  ∃ ws sg ds : List Char, t = ws ++ (sg ++ (ds ++ r)) ∧ (∀ c ∈ ws, isspace c = true) ∧
    (sg = [] ∨ sg = ['+'] ∨ sg = ['-']) ∧ ds ≠ [] ∧ (∀ c ∈ ds, isdigit c = true) ∧
    (∀ c ∈ r.head?, isdigit c = false) ∧
    v = storeInt outOfRange
      (if sg = ['-'] then -(digitsValue ds : Int) else (digitsValue ds : Int))

/-- The input on which `sscanf` with the format `r.%d.%d.mca` assigns `x` and
`z`: `r.`, an integer item assigning `x`, `.`, an integer item assigning `z`,
then anything. -/
def IsRegionName (outOfRange : Int → Int) (name : List Char) (x z : Int) : Prop :=
  ∃ t1 t2 rest : List Char, name = 'r' :: '.' :: t1 ∧
    IsIntItem outOfRange t1 x ('.' :: t2) ∧ IsIntItem outOfRange t2 z rest

/-- The pattern of the specification, `r.<x>.<z>.<ext>`: `r.`, two optionally
signed decimal integers separated by `.`, then `.` and an extension. -/
def IsRegionFilename (name : List Char) : Prop :=
  ∃ sg1 ds1 sg2 ds2 ext : List Char,
    name = 'r' :: '.' :: (sg1 ++ (ds1 ++ '.' :: (sg2 ++ (ds2 ++ '.' :: ext)))) ∧
    (sg1 = [] ∨ sg1 = ['+'] ∨ sg1 = ['-']) ∧ ds1 ≠ [] ∧ (∀ c ∈ ds1, isdigit c = true) ∧
    (sg2 = [] ∨ sg2 = ['+'] ∨ sg2 = ['-']) ∧ ds2 ≠ [] ∧ (∀ c ∈ ds2, isdigit c = true)

/-- The decimal numeral of a natural number, without leading zeros. -/
def natDecimal (n : Nat) : List Char :=
  if n = 0 then ['0'] else (Nat.digits 10 n).reverse.map (fun d => Char.ofNat (48 + d))

/-- The decimal numeral `<x>` of an integer, with `-` for a negative one. -/
def decimal (v : Int) : List Char :=
  if v < 0 then '-' :: natDecimal v.natAbs else natDecimal v.natAbs

/-! ## worldcache.cpp: `PositionCache<Key, Value, kBits>` -/

/-- What the template `PositionCache` uses of its `Key` parameter: the public
members `x` and `z` and the two-`int` constructor. -/
class PosKey (K : Type) where
  x : K → Int
  z : K → Int
  make : Int → Int → K

instance instPosKeyRegionPos : PosKey RegionPos := ⟨RegionPos.x, RegionPos.z, RegionPos.mk⟩

instance instPosKeyChunkPos : PosKey ChunkPos := ⟨ChunkPos.x, ChunkPos.z, ChunkPos.mk⟩

/-- Conversion of an `int` to `uint32_t` (value modulo `2^32`). -/
def toUInt32 (v : Int) : Nat := (v % 4294967296).toNat

/-- `kWidth = 1 << kBits`. -/
def kWidth (kBits : Nat) : Nat := 1 <<< kBits

/-- `kNumBuckets = kWidth * kWidth`. -/
def kNumBuckets (kBits : Nat) : Nat := kWidth kBits * kWidth kBits

/-- `kMask = static_cast<uint32_t>(kWidth) - 1`. -/
def kMask (kBits : Nat) : Nat := kWidth kBits - 1

/-- `Bucket::kDefaultValue = std::numeric_limits<int>::max()`. -/
def kDefaultValue : Int := 2147483647

/-- The struct `PositionCache::Bucket`. -/
structure Bucket (K V : Type) where
  key : K
  value : Option V

/-- A default-constructed bucket: `key{kDefaultValue, kDefaultValue}` and a
null `value`. -/
def Bucket.init {K V : Type} [PosKey K] : Bucket K V :=
  ⟨PosKey.make kDefaultValue kDefaultValue, none⟩

/-- `PositionCache::IndexForKey`:
`((key.x & kMask) << kBits) | (key.z & kMask)`, the `int` coordinates being
converted to `uint32_t` by the `&` with the unsigned mask. For every
`kBits` for which the template compiles (`kNumBuckets` must fit an `int`,
so `kBits ≤ 15`) the unsigned result is below `2^30` and nothing wraps. -/
def IndexForKey {K : Type} [PosKey K] (kBits : Nat) (key : K) : Nat :=
  ((toUInt32 (PosKey.x key) &&& kMask kBits) <<< kBits) |||
    (toUInt32 (PosKey.z key) &&& kMask kBits)

theorem and_kMask_lt (kBits n : Nat) : n &&& kMask kBits < 2 ^ kBits := by
  unfold kMask kWidth
  rw [Nat.one_shiftLeft, Nat.and_pow_two_sub_one_eq_mod]
  exact Nat.mod_lt _ (Nat.two_pow_pos kBits)

theorem IndexForKey_lt {K : Type} [PosKey K] (kBits : Nat) (key : K) :
    IndexForKey kBits key < kNumBuckets kBits := by
  have hx := and_kMask_lt kBits (toUInt32 (PosKey.x key))
  have hz := and_kMask_lt kBits (toUInt32 (PosKey.z key))
  have hnum : kNumBuckets kBits = 2 ^ (kBits + kBits) := by
    unfold kNumBuckets kWidth
    rw [Nat.one_shiftLeft, pow_add]
  rw [hnum]
  unfold IndexForKey
  apply Nat.or_lt_two_pow
  · rw [Nat.shiftLeft_eq, pow_add]
    exact Nat.mul_lt_mul_of_pos_right hx (Nat.two_pow_pos kBits)
  · calc toUInt32 (PosKey.z key) &&& kMask kBits < 2 ^ kBits := hz
      _ ≤ 2 ^ (kBits + kBits) := Nat.pow_le_pow_right (by decide) (Nat.le_add_left _ _)

/-- The class `PositionCache`: its only member is
`std::array<Bucket, kNumBuckets> data`. -/
structure PositionCache (K V : Type) (kBits : Nat) where
  data : Fin (kNumBuckets kBits) → Bucket K V

namespace PositionCache

variable {K V : Type} {kBits : Nat}

/-- The slot `data[IndexForKey(key)]` addressed by a key. -/
def slot [PosKey K] (kBits : Nat) (key : K) : Fin (kNumBuckets kBits) :=
  ⟨IndexForKey kBits key, IndexForKey_lt kBits key⟩

/-- A freshly constructed cache: every bucket is default-constructed. -/
def fresh [PosKey K] : PositionCache K V kBits :=
  ⟨fun _ => Bucket.init⟩

/-- `PositionCache::Get`. -/
def Get [PosKey K] [BEq K] (c : PositionCache K V kBits) (key : K) : Option (Option V) :=
  let bucket := c.data (slot kBits key)
  if bucket.key == key then some bucket.value else none

/-- `PositionCache::Put`. -/
def Put [PosKey K] (c : PositionCache K V kBits) (key : K) (value : Option V) :
    PositionCache K V kBits :=
  ⟨fun i => if i = slot kBits key then ⟨key, value⟩ else c.data i⟩

/-- A sequence of `Put` calls, applied from left to right. -/
def PutAll [PosKey K] (c : PositionCache K V kBits) (puts : List (K × Option V)) :
    PositionCache K V kBits :=
  puts.foldl (fun c p => c.Put p.1 p.2) c

end PositionCache

/-! ## worldcache.h / worldcache.cpp: `Block`, `CacheStats`, `WorldCache` -/

/-- The two's complement `int` whose bit pattern is the `uint32_t` value `n`. -/
def ofUInt32 (n : Nat) : Int := if n < 2147483648 then (n : Int) else (n : Int) - 4294967296

/-- The operator `&` on two `int`s. -/
def andInt32 (a b : Int) : Int := ofUInt32 (toUInt32 a &&& toUInt32 b)

/-- The operator `|` on two `int`s. -/
def orInt32 (a b : Int) : Int := ofUInt32 (toUInt32 a ||| toUInt32 b)

def GET_ID : Int := 1

def GET_BIOME : Int := 4

def GET_BLOCK_LIGHT : Int := 8

def GET_SKY_LIGHT : Int := 16

/-- The struct `Block` of worldcache.h (`id` is a `uint16_t`, `biome`,
`block_light` and `sky_light` are `uint8_t`, `fields_set` is an `int`). -/
structure Block where
  pos : BlockPos
  id : Nat
  biome : Nat
  block_light : Nat
  sky_light : Nat
  fields_set : Int
deriving DecidableEq, Repr

/-- The default constructor `Block::Block()`. -/
def Block.init : Block :=
  { pos := ⟨0, 0, 0⟩, id := 0, biome := 0, block_light := 0, sky_light := 15, fields_set := 0 }

/-- The struct `CacheStats` of worldcache.h. The counters start at `0`, are
only written by `++` and are never read by the cache: each field is the
number of times `++` was applied to the counter. The `int` the counter
holds is `counterValue` of that number (`CacheStats.held`). -/
structure CacheStats where
  hits : Nat
  misses : Nat
  region_not_found : Nat
  not_found : Nat
  invalid : Nat
  unavailable : Nat
deriving DecidableEq, Repr

/-- The default constructor `CacheStats()`: every counter is `0`. -/
def CacheStats.init : CacheStats := ⟨0, 0, 0, 0, 0, 0⟩

/-- Modelled from the spec: the classes `World`, `RegionFile` and `Chunk`
(world.h, region.h, chunk.h) are not among the sources. The world cache
consumes them through these operations only; following the spec the world
data is immutable during a run, so each is a function of its arguments.

* `World_getRegion pos`: `world.getRegion(pos, region)`; `none` is the
  `false` return, `some r` the `true` return with the region handle filled in.
* `RegionFile_read r`: `region->read()`; `none` is the `false` return,
  `some r` the region after a successful read.
* `RegionFile_loadChunk r pos`: `region->loadChunk(pos, block_registry, chunk)`,
  the `int` status together with the decoded chunk.
* `CHUNK_OK`, `CHUNK_DOES_NOT_EXIST`: the two status constants of
  `RegionFile` that `getChunk` tests, two different values.
* `Chunk_getPos` and the four per-block accessors of `Chunk`, returning
  values of the types of the `Block` fields they are assigned to. -/
structure Collaborators (RegionFile Chunk : Type) where
  World_getRegion : RegionPos → Option RegionFile
  RegionFile_read : RegionFile → Option RegionFile
  RegionFile_loadChunk : RegionFile → ChunkPos → Int × Chunk
  CHUNK_OK : Int
  CHUNK_DOES_NOT_EXIST : Int
  CHUNK_OK_ne : CHUNK_OK ≠ CHUNK_DOES_NOT_EXIST
  Chunk_getPos : Chunk → ChunkPos
  Chunk_getBlockID : Chunk → LocalBlockPos → Nat
  Chunk_getBiomeAt : Chunk → LocalBlockPos → Nat
  Chunk_getBlockLight : Chunk → LocalBlockPos → Nat
  Chunk_getSkyLight : Chunk → LocalBlockPos → Nat

/-- A call made by the world cache to the world source or to a region. -/
inductive ExtCall where
  | worldGetRegion (pos : RegionPos)
  | regionRead (pos : RegionPos)
  | loadChunk (pos : ChunkPos)
deriving DecidableEq, Repr

/-- The mutable state of the class `WorldCache`: `regioncache`
(`PositionCache<RegionPos, RegionFile, 2>`), `chunkcache`
(`PositionCache<ChunkPos, Chunk, 5>`), `regionstats`, `chunkstats`; `calls`
is the record, oldest first, of the calls made so far to the world source
and to regions. The constant member `world` is the `Collaborators` argument
of the methods. -/
structure WorldCache (RegionFile Chunk : Type) where
  regioncache : PositionCache RegionPos RegionFile 2
  chunkcache : PositionCache ChunkPos Chunk 5
  regionstats : CacheStats
  chunkstats : CacheStats
  calls : List ExtCall

namespace WorldCache

variable {RegionFile Chunk : Type}

/-- The constructor `WorldCache::WorldCache`. -/
def init : WorldCache RegionFile Chunk :=
  { regioncache := PositionCache.fresh, chunkcache := PositionCache.fresh,
    regionstats := CacheStats.init, chunkstats := CacheStats.init, calls := [] }

/-- `WorldCache::getRegion`. -/
def getRegion (world : Collaborators RegionFile Chunk) (pos : RegionPos)
    (s : WorldCache RegionFile Chunk) : Option RegionFile × WorldCache RegionFile Chunk :=
  match s.regioncache.Get pos with
  | some region_ptr =>
    (region_ptr, { s with regionstats := { s.regionstats with hits := s.regionstats.hits + 1 } })
  | none =>
    let s := { s with calls := s.calls ++ [ExtCall.worldGetRegion pos] }
    match world.World_getRegion pos with
    | none =>
      (none, { s with
        regioncache := s.regioncache.Put pos none
        regionstats := { s.regionstats with
          region_not_found := s.regionstats.region_not_found + 1 } })
    | some region =>
      let s := { s with calls := s.calls ++ [ExtCall.regionRead pos] }
      match world.RegionFile_read region with
      | none =>
        (none, { s with
          regioncache := s.regioncache.Put pos none
          regionstats := { s.regionstats with invalid := s.regionstats.invalid + 1 } })
      | some region =>
        (some region, { s with
          regionstats := { s.regionstats with misses := s.regionstats.misses + 1 }
          regioncache := s.regioncache.Put pos (some region) })

/-- `WorldCache::getChunk`. -/
def getChunk (world : Collaborators RegionFile Chunk) (pos : ChunkPos)
    (s : WorldCache RegionFile Chunk) : Option Chunk × WorldCache RegionFile Chunk :=
  match s.chunkcache.Get pos with
  | some chunk_ptr =>
    (chunk_ptr, { s with chunkstats := { s.chunkstats with hits := s.chunkstats.hits + 1 } })
  | none =>
    match getRegion world pos.getRegion s with
    | (none, s) =>
      (none, { s with
        chunkstats := { s.chunkstats with
          region_not_found := s.chunkstats.region_not_found + 1 } })
    | (some region, s) =>
      let s := { s with calls := s.calls ++ [ExtCall.loadChunk pos] }
      let status := (world.RegionFile_loadChunk region pos).1
      let chunk := (world.RegionFile_loadChunk region pos).2
      if status = world.CHUNK_DOES_NOT_EXIST then
        (none, { s with
          chunkcache := s.chunkcache.Put pos none
          chunkstats := { s.chunkstats with not_found := s.chunkstats.not_found + 1 } })
      else if status ≠ world.CHUNK_OK then
        (none, { s with
          chunkcache := s.chunkcache.Put pos none
          chunkstats := { s.chunkstats with invalid := s.chunkstats.invalid + 1 } })
      else
        (some chunk, { s with
          chunkstats := { s.chunkstats with misses := s.chunkstats.misses + 1 }
          chunkcache := s.chunkcache.Put pos (some chunk) })

/-- The part of `WorldCache::getBlock` after the chunk has been resolved:
`block.pos = pos`, then one field and one bit of `fields_set` for each of the
four flags present in `get`. -/
def readBlock (world : Collaborators RegionFile Chunk) (pos : BlockPos) (mychunk : Chunk)
    (get : Int) : Block :=
  let localPos := LocalBlockPos.ofBlockPos pos
  let block := { Block.init with pos := pos }
  let block := if andInt32 get GET_ID ≠ 0 then
      { block with id := world.Chunk_getBlockID mychunk localPos
                   fields_set := orInt32 block.fields_set GET_ID }
    else block
  let block := if andInt32 get GET_BIOME ≠ 0 then
      { block with biome := world.Chunk_getBiomeAt mychunk localPos
                   fields_set := orInt32 block.fields_set GET_BIOME }
    else block
  let block := if andInt32 get GET_BLOCK_LIGHT ≠ 0 then
      { block with block_light := world.Chunk_getBlockLight mychunk localPos
                   fields_set := orInt32 block.fields_set GET_BLOCK_LIGHT }
    else block
  let block := if andInt32 get GET_SKY_LIGHT ≠ 0 then
      { block with sky_light := world.Chunk_getSkyLight mychunk localPos
                   fields_set := orInt32 block.fields_set GET_SKY_LIGHT }
    else block
  block

/-- `WorldCache::getBlock`; `chunk` is the optional chunk hint. -/
def getBlock (world : Collaborators RegionFile Chunk) (pos : BlockPos) (chunk : Option Chunk)
    (get : Int) (s : WorldCache RegionFile Chunk) : Block × WorldCache RegionFile Chunk :=
  if pos.y < 0 then (Block.init, s)
  else
    let chunk_pos := ChunkPos.ofBlockPos pos
    let resolved : Option Chunk × WorldCache RegionFile Chunk :=
      match chunk with
      | none => getChunk world chunk_pos s
      | some c =>
        if chunk_pos != world.Chunk_getPos c then getChunk world chunk_pos s else (some c, s)
    match resolved with
    | (none, s) => (Block.init, s)
    | (some mychunk, s) => (readBlock world pos mychunk get, s)

/-- A call of one of the public methods of `WorldCache`. -/
inductive Op (Chunk : Type) where
  | getRegion (pos : RegionPos)
  | getChunk (pos : ChunkPos)
  | getBlock (pos : BlockPos) (chunk : Option Chunk) (get : Int)

/-- The state after one method call. -/
def step (world : Collaborators RegionFile Chunk) (s : WorldCache RegionFile Chunk) :
    Op Chunk → WorldCache RegionFile Chunk
  | Op.getRegion pos => (getRegion world pos s).2
  | Op.getChunk pos => (getChunk world pos s).2
  | Op.getBlock pos chunk get => (getBlock world pos chunk get s).2

/-- The state a `WorldCache` is in after construction and the method calls
`ops`, in order: the states a program can observe. -/
def run (world : Collaborators RegionFile Chunk) (ops : List (Op Chunk)) :
    WorldCache RegionFile Chunk :=
  ops.foldl (step world) init

/-- The state after a run of `getBlock(pos, nullptr, get)` calls on the same
position, one for each mask of `gets`. -/
def getBlocks (world : Collaborators RegionFile Chunk) (pos : BlockPos) (gets : List Int)
    (s : WorldCache RegionFile Chunk) : WorldCache RegionFile Chunk :=
  gets.foldl (fun s get => (getBlock world pos none get s).2) s

/-- What holds of every region bucket of a reachable state: a bucket that
holds a region has the position of an existing region file as its key. -/
def RegionBucketOK (world : Collaborators RegionFile Chunk)
    (b : Bucket RegionPos RegionFile) : Prop :=
  b.value ≠ none → world.World_getRegion b.key ≠ none

/-- What holds of every chunk bucket of a reachable state: its key is the
key of the default-constructed bucket or a chunk of an existing region
file. -/
def ChunkBucketOK (world : Collaborators RegionFile Chunk) (b : Bucket ChunkPos Chunk) : Prop :=
  b.key = ⟨kDefaultValue, kDefaultValue⟩ ∨ world.World_getRegion b.key.getRegion ≠ none

/-- Every bucket of both caches is as in a reachable state. -/
def Consistent (world : Collaborators RegionFile Chunk) (s : WorldCache RegionFile Chunk) :
    Prop :=
  (∀ i, RegionBucketOK world (s.regioncache.data i)) ∧
  (∀ i, ChunkBucketOK world (s.chunkcache.data i))

end WorldCache

/-- The sum of the counters `getChunk` increments. -/
def CacheStats.chunkTotal (c : CacheStats) : Nat :=
  c.hits + c.misses + c.region_not_found + c.not_found + c.invalid

/-- The sum of the counters `getRegion` increments. -/
def CacheStats.regionTotal (c : CacheStats) : Nat :=
  c.hits + c.misses + c.region_not_found + c.invalid

/-- No counter of `a` exceeds the same counter of `b`. -/
def CacheStats.le (a b : CacheStats) : Prop :=
  a.hits ≤ b.hits ∧ a.misses ≤ b.misses ∧ a.region_not_found ≤ b.region_not_found ∧
  a.not_found ≤ b.not_found ∧ a.invalid ≤ b.invalid ∧ a.unavailable ≤ b.unavailable

/-- Exactly one of the counters `hits`, `misses`, `region_not_found`,
`invalid` is one more in `b` than in `a`, and every other counter is the
same. -/
def CacheStats.regionIncrement (a b : CacheStats) : Prop :=
  b = { a with hits := a.hits + 1 } ∨ b = { a with misses := a.misses + 1 } ∨
  b = { a with region_not_found := a.region_not_found + 1 } ∨
  b = { a with invalid := a.invalid + 1 }

/-- Exactly one of the counters `hits`, `misses`, `region_not_found`,
`not_found`, `invalid` is one more in `b` than in `a`, and every other
counter is the same. -/
def CacheStats.chunkIncrement (a b : CacheStats) : Prop :=
  b = { a with hits := a.hits + 1 } ∨ b = { a with misses := a.misses + 1 } ∨
  b = { a with region_not_found := a.region_not_found + 1 } ∨
  b = { a with not_found := a.not_found + 1 } ∨
  b = { a with invalid := a.invalid + 1 }

/-- The six `int`s of a `CacheStats` as the program holds them. -/
structure CacheStatsInt where
  hits : Int
  misses : Int
  region_not_found : Int
  not_found : Int
  invalid : Int
  unavailable : Int
deriving DecidableEq, Repr

/-- The sum of the counters `getChunk` increments. -/
def CacheStatsInt.chunkTotal (c : CacheStatsInt) : Int :=
  c.hits + c.misses + c.region_not_found + c.not_found + c.invalid

/-- The sum of the counters `getRegion` increments. -/
def CacheStatsInt.regionTotal (c : CacheStatsInt) : Int :=
  c.hits + c.misses + c.region_not_found + c.invalid

/-- No counter of `a` exceeds the same counter of `b`. -/
def CacheStatsInt.le (a b : CacheStatsInt) : Prop :=
  a.hits ≤ b.hits ∧ a.misses ≤ b.misses ∧ a.region_not_found ≤ b.region_not_found ∧
  a.not_found ≤ b.not_found ∧ a.invalid ≤ b.invalid ∧ a.unavailable ≤ b.unavailable

/-- Every counter that a method increments holds less than `INT_MAX`. -/
def CacheStatsInt.belowMax (a : CacheStatsInt) : Prop :=
  a.hits < 2147483647 ∧ a.misses < 2147483647 ∧ a.region_not_found < 2147483647 ∧
  a.not_found < 2147483647 ∧ a.invalid < 2147483647

instance instDecidableBelowMax (a : CacheStatsInt) : Decidable a.belowMax := by
  unfold CacheStatsInt.belowMax
  exact inferInstance

/-- Exactly one of the counters `hits`, `misses`, `region_not_found`,
`invalid` is one more in `b` than in `a`, and every other counter is the
same. -/
def CacheStatsInt.regionIncrement (a b : CacheStatsInt) : Prop :=
  b = { a with hits := a.hits + 1 } ∨ b = { a with misses := a.misses + 1 } ∨
  b = { a with region_not_found := a.region_not_found + 1 } ∨
  b = { a with invalid := a.invalid + 1 }

/-- Exactly one of the counters `hits`, `misses`, `region_not_found`,
`not_found`, `invalid` is one more in `b` than in `a`, and every other
counter is the same. -/
def CacheStatsInt.chunkIncrement (a b : CacheStatsInt) : Prop :=
  b = { a with hits := a.hits + 1 } ∨ b = { a with misses := a.misses + 1 } ∨
  b = { a with region_not_found := a.region_not_found + 1 } ∨
  b = { a with not_found := a.not_found + 1 } ∨
  b = { a with invalid := a.invalid + 1 }

/-- A small world used to instantiate the theorems. A region handle is the
position of its region and a chunk is the position it was decoded for.
Region `(1,1)` has no file, the file of region `(2,2)` does not validate,
every other region loads. In a loaded region chunk `(0,1)` does not exist
(status `2`), chunk `(1,0)` fails to decode (status `3`) and every other
chunk decodes (status `1`). Chunk `(0,0)` has block id `7` at the local
position `(3,4,5)`. -/
def exampleWorld : Collaborators RegionPos ChunkPos where
  World_getRegion := fun pos => if pos = ⟨1, 1⟩ then none else some pos
  RegionFile_read := fun r => if r = ⟨2, 2⟩ then none else some r
  RegionFile_loadChunk := fun _ pos =>
    (if pos = ⟨0, 1⟩ then 2 else if pos = ⟨1, 0⟩ then 3 else 1, pos)
  CHUNK_OK := 1
  CHUNK_DOES_NOT_EXIST := 2
  CHUNK_OK_ne := by decide
  Chunk_getPos := fun c => c
  Chunk_getBlockID := fun c l => if c = ⟨0, 0⟩ ∧ l = ⟨3, 4, 5⟩ then 7 else 0
  Chunk_getBiomeAt := fun _ _ => 1
  Chunk_getBlockLight := fun _ l => (l.y % 16).toNat
  Chunk_getSkyLight := fun _ _ => 12

/-! ## Theorems -/

namespace PositionCache

variable {K V : Type} {kBits : Nat}

theorem data_Put_slot [PosKey K] (c : PositionCache K V kBits) (k : K) (v : Option V) :
    (c.Put k v).data (slot kBits k) = ⟨k, v⟩ := by
  simp [Put]

theorem data_Put_of_ne [PosKey K] (c : PositionCache K V kBits) (k : K) (v : Option V)
    (i : Fin (kNumBuckets kBits)) (h : i ≠ slot kBits k) :
    (c.Put k v).data i = c.data i := by
  simp [Put, h]

theorem Get_Put_eq [PosKey K] [BEq K] [LawfulBEq K] (c : PositionCache K V kBits)
    (k : K) (v : Option V) : (c.Put k v).Get k = some v := by
  simp [Get, data_Put_slot]

theorem Put_forall [PosKey K] (P : Bucket K V → Prop) (c : PositionCache K V kBits) (k : K)
    (v : Option V) (hc : ∀ i, P (c.data i)) (hn : P ⟨k, v⟩) : ∀ i, P ((c.Put k v).data i) := by
  intro i
  by_cases hi : i = slot kBits k
  · rw [hi, data_Put_slot]
    exact hn
  · rw [data_Put_of_ne c k v i hi]
    exact hc i

theorem Get_eq_some [PosKey K] [BEq K] [LawfulBEq K] (c : PositionCache K V kBits) (k : K)
    (v : Option V) (h : c.Get k = some v) :
    (c.data (slot kBits k)).key = k ∧ (c.data (slot kBits k)).value = v := by
  unfold Get at h
  by_cases hk : ((c.data (slot kBits k)).key == k) = true
  · simp only [hk, if_true, Option.some.injEq] at h
    exact ⟨eq_of_beq hk, h⟩
  · simp [hk] at h

theorem Get_eq_none_of_key_ne [PosKey K] [BEq K] [LawfulBEq K] (c : PositionCache K V kBits)
    (k : K) (h : (c.data (slot kBits k)).key ≠ k) : c.Get k = none := by
  have hk : ((c.data (slot kBits k)).key == k) = false := by
    rw [beq_eq_false_iff_ne]
    exact h
  simp [Get, hk]

/-- C1: for every cache state, key `k` and value `v` (present or null),
`Get(k)` right after `Put(k, v)` is a hit that yields exactly `v`. -/
theorem Get_Put_same [PosKey K] [BEq K] [LawfulBEq K] (c : PositionCache K V kBits)
    (k : K) (v : Option V) : (c.Put k v).Get k = some v := by
  simp [Get, data_Put_slot]

theorem Get_Put_same_witness :
    (((fresh : PositionCache RegionPos Nat 2).Put ⟨5, -2⟩ (some 20)).Put ⟨-1, 7⟩ none).Get ⟨-1, 7⟩
      = some none :=
  Get_Put_same ((fresh : PositionCache RegionPos Nat 2).Put ⟨5, -2⟩ (some 20)) ⟨-1, 7⟩ none

/-- C2: two distinct keys whose `x` and whose `z` agree in the low `kBits`
bits share a slot: after `Put(k1, v1)` then `Put(k2, v2)`, `Get(k2)` is a hit
with `v2` and `Get(k1)` is a miss. -/
theorem Get_after_colliding_Put [PosKey K] [BEq K] [LawfulBEq K]
    (c : PositionCache K V kBits) (k1 k2 : K) (v1 v2 : Option V) (hne : k1 ≠ k2)
    (hx : toUInt32 (PosKey.x k1) &&& kMask kBits = toUInt32 (PosKey.x k2) &&& kMask kBits)
    (hz : toUInt32 (PosKey.z k1) &&& kMask kBits = toUInt32 (PosKey.z k2) &&& kMask kBits) :
    ((c.Put k1 v1).Put k2 v2).Get k2 = some v2 ∧ ((c.Put k1 v1).Put k2 v2).Get k1 = none := by
  have hslot : slot kBits k1 = slot kBits k2 := by
    apply Fin.ext
    show IndexForKey kBits k1 = IndexForKey kBits k2
    unfold IndexForKey
    rw [hx, hz]
  refine ⟨by simp [Get, data_Put_slot], ?_⟩
  have hk : (k2 == k1) = false := by
    rw [beq_eq_false_iff_ne]
    exact fun h => hne h.symm
  simp [Get, hslot, data_Put_slot, hk]

theorem Get_after_colliding_Put_witness :
    (RegionPos.mk 1 2 ≠ RegionPos.mk 5 (-2)) ∧
    (((fresh : PositionCache RegionPos Nat 2).Put ⟨1, 2⟩ (some 10)).Put ⟨5, -2⟩ (some 20)).Get ⟨5, -2⟩
        = some (some 20) ∧
    (((fresh : PositionCache RegionPos Nat 2).Put ⟨1, 2⟩ (some 10)).Put ⟨5, -2⟩ (some 20)).Get ⟨1, 2⟩
        = none :=
  ⟨by decide,
   Get_after_colliding_Put (fresh : PositionCache RegionPos Nat 2) ⟨1, 2⟩ ⟨5, -2⟩ (some 10)
     (some 20) (by decide) (by decide) (by decide)⟩

/-- Every bucket of a cache built by `Put`s from a fresh cache is either
default-constructed or holds one of the inserted keys. -/
theorem data_PutAll_key [PosKey K] (puts : List (K × Option V)) (c : PositionCache K V kBits)
    (i : Fin (kNumBuckets kBits)) :
    (c.PutAll puts).data i = c.data i ∨ ∃ p ∈ puts, ((c.PutAll puts).data i).key = p.1 := by
  induction puts generalizing c with
  | nil => exact Or.inl rfl
  | cons p rest ih =>
    have hstep : (c.PutAll (p :: rest)) = (c.Put p.1 p.2).PutAll rest := rfl
    rw [hstep]
    rcases ih (c.Put p.1 p.2) with h | ⟨q, hq, hkey⟩
    · by_cases hi : i = slot kBits p.1
      · right
        refine ⟨p, List.mem_cons_self _ _, ?_⟩
        rw [h, hi, data_Put_slot]
      · left
        rw [h, data_Put_of_ne c p.1 p.2 i hi]
    · exact Or.inr ⟨q, List.mem_cons_of_mem _ hq, hkey⟩

/-- C3 as stated fails at the sentinel key: on a freshly constructed cache
(no `Put` at all) `Get` of the key `(INT_MAX, INT_MAX)` reports a hit, with
a null value, because every default-constructed bucket carries that key. -/
theorem Get_fresh_sentinel_hit :
    (∀ p ∈ ([] : List (RegionPos × Option Nat)), p.1 ≠ RegionPos.mk 2147483647 2147483647) ∧
    ((fresh : PositionCache RegionPos Nat 2).PutAll []).Get ⟨2147483647, 2147483647⟩
      = some none := by
  refine ⟨by simp, ?_⟩
  decide

/-- C3 (amended): for every key `k` other than the sentinel
`(INT_MAX, INT_MAX)` of the default-constructed bucket and every sequence of
`Put`s on a fresh cache that never inserts `k`, `Get(k)` is a miss. -/
theorem Get_never_inserted_miss [PosKey K] [BEq K] [LawfulBEq K] (k : K)
    (puts : List (K × Option V))
    (hsent : k ≠ PosKey.make kDefaultValue kDefaultValue)
    (hputs : ∀ p ∈ puts, p.1 ≠ k) :
    ((fresh : PositionCache K V kBits).PutAll puts).Get k = none := by
  have hkey : (((fresh : PositionCache K V kBits).PutAll puts).data (slot kBits k)).key ≠ k := by
    rcases data_PutAll_key puts (fresh : PositionCache K V kBits) (slot kBits k) with h | ⟨p, hp, h⟩
    · rw [h]
      exact fun e => hsent e.symm
    · rw [h]
      exact hputs p hp
  have hk : ((((fresh : PositionCache K V kBits).PutAll puts).data (slot kBits k)).key == k)
      = false := by
    rw [beq_eq_false_iff_ne]
    exact hkey
  simp [Get, hk]

theorem Get_never_inserted_miss_witness :
    ((fresh : PositionCache ChunkPos Nat 5).PutAll
        [(⟨33, 33⟩, some 1), (⟨-31, 1⟩, none)]).Get ⟨1, 1⟩ = none :=
  @Get_never_inserted_miss ChunkPos Nat 5 _ _ _ ⟨1, 1⟩ [(⟨33, 33⟩, some 1), (⟨-31, 1⟩, none)]
    (by decide) (by decide)

end PositionCache

namespace WorldCache

variable {RegionFile Chunk : Type}

theorem getRegion_hit (world : Collaborators RegionFile Chunk) (pos : RegionPos)
    (s : WorldCache RegionFile Chunk) (v : Option RegionFile)
    (h : s.regioncache.Get pos = some v) :
    getRegion world pos s =
      (v, { s with regionstats := { s.regionstats with hits := s.regionstats.hits + 1 } }) := by
  simp [getRegion, h]

theorem getRegion_absent (world : Collaborators RegionFile Chunk) (pos : RegionPos)
    (s : WorldCache RegionFile Chunk) (hmiss : s.regioncache.Get pos = none)
    (habsent : world.World_getRegion pos = none) :
    getRegion world pos s =
      (none, { s with
        regioncache := s.regioncache.Put pos none
        regionstats := { s.regionstats with
          region_not_found := s.regionstats.region_not_found + 1 }
        calls := s.calls ++ [ExtCall.worldGetRegion pos] }) := by
  simp [getRegion, hmiss, habsent]

theorem getRegion_invalid (world : Collaborators RegionFile Chunk) (pos : RegionPos)
    (s : WorldCache RegionFile Chunk) (raw : RegionFile)
    (hmiss : s.regioncache.Get pos = none) (hraw : world.World_getRegion pos = some raw)
    (hread : world.RegionFile_read raw = none) :
    getRegion world pos s =
      (none, { s with
        regioncache := s.regioncache.Put pos none
        regionstats := { s.regionstats with invalid := s.regionstats.invalid + 1 }
        calls := s.calls ++ [ExtCall.worldGetRegion pos] ++ [ExtCall.regionRead pos] }) := by
  simp [getRegion, hmiss, hraw, hread]

theorem getRegion_loaded (world : Collaborators RegionFile Chunk) (pos : RegionPos)
    (s : WorldCache RegionFile Chunk) (raw region : RegionFile)
    (hmiss : s.regioncache.Get pos = none) (hraw : world.World_getRegion pos = some raw)
    (hread : world.RegionFile_read raw = some region) :
    getRegion world pos s =
      (some region, { s with
        regioncache := s.regioncache.Put pos (some region)
        regionstats := { s.regionstats with misses := s.regionstats.misses + 1 }
        calls := s.calls ++ [ExtCall.worldGetRegion pos] ++ [ExtCall.regionRead pos] }) := by
  simp [getRegion, hmiss, hraw, hread]

/-- C4: `getRegion(pos)` case by case. On a region-cache hit it returns the
stored value and only `regionstats.hits` changes. On a miss: with no region
file it stores null for `pos`, counts `region_not_found` and returns null;
with a file whose `read()` fails it stores null, counts `invalid` and returns
null; with a file that reads it stores the region, counts `misses` and
returns it. Nothing else of the state changes, apart from the record of the
calls made to the world source. -/
theorem getRegion_cases (world : Collaborators RegionFile Chunk) (pos : RegionPos)
    (s : WorldCache RegionFile Chunk) :
    (∀ v, s.regioncache.Get pos = some v →
      getRegion world pos s =
        (v, { s with regionstats := { s.regionstats with hits := s.regionstats.hits + 1 } })) ∧
    (s.regioncache.Get pos = none →
      (world.World_getRegion pos = none →
        getRegion world pos s =
          (none, { s with
            regioncache := s.regioncache.Put pos none
            regionstats := { s.regionstats with
              region_not_found := s.regionstats.region_not_found + 1 }
            calls := s.calls ++ [ExtCall.worldGetRegion pos] })) ∧
      (∀ raw, world.World_getRegion pos = some raw → world.RegionFile_read raw = none →
        getRegion world pos s =
          (none, { s with
            regioncache := s.regioncache.Put pos none
            regionstats := { s.regionstats with invalid := s.regionstats.invalid + 1 }
            calls := s.calls ++ [ExtCall.worldGetRegion pos] ++ [ExtCall.regionRead pos] })) ∧
      (∀ raw region, world.World_getRegion pos = some raw →
        world.RegionFile_read raw = some region →
        getRegion world pos s =
          (some region, { s with
            regioncache := s.regioncache.Put pos (some region)
            regionstats := { s.regionstats with misses := s.regionstats.misses + 1 }
            calls := s.calls ++ [ExtCall.worldGetRegion pos] ++ [ExtCall.regionRead pos] }))) := by
  refine ⟨?_, fun hmiss => ⟨?_, ?_, ?_⟩⟩
  · intro v hv
    exact getRegion_hit world pos s v hv
  · intro habsent
    exact getRegion_absent world pos s hmiss habsent
  · intro raw hraw hread
    exact getRegion_invalid world pos s raw hmiss hraw hread
  · intro raw region hraw hread
    exact getRegion_loaded world pos s raw region hmiss hraw hread

theorem getRegion_cases_witness :
    getRegion exampleWorld ⟨1, 1⟩ init =
        (none, { (init : WorldCache RegionPos ChunkPos) with
          regioncache := (init : WorldCache RegionPos ChunkPos).regioncache.Put ⟨1, 1⟩ none
          regionstats := { CacheStats.init with region_not_found := 1 }
          calls := [ExtCall.worldGetRegion ⟨1, 1⟩] }) ∧
    getRegion exampleWorld ⟨3, 0⟩ (getRegion exampleWorld ⟨3, 0⟩ init).2 =
        (some ⟨3, 0⟩, { (getRegion exampleWorld ⟨3, 0⟩ init).2 with
          regionstats := { (getRegion exampleWorld ⟨3, 0⟩ init).2.regionstats with
            hits := (getRegion exampleWorld ⟨3, 0⟩ init).2.regionstats.hits + 1 } }) :=
  ⟨((getRegion_cases exampleWorld ⟨1, 1⟩ init).2 (by decide)).1 (by decide),
   (getRegion_cases exampleWorld ⟨3, 0⟩ (getRegion exampleWorld ⟨3, 0⟩ init).2).1 (some ⟨3, 0⟩)
     (by decide)⟩

/-- C5, evaluated on the code: with no file for region `(1,1)` and a new
world cache, two consecutive `getChunk(ChunkPos(33,33))` calls both return
null, but the first call stores nothing in the chunk cache (the slot is
still a miss after it), so the second call is no chunk-cache hit and counts
`region_not_found` again: the chunk tier ends with `region_not_found = 2`
and `hits = 0`, the region tier with `region_not_found = 1` and `hits = 1`. -/
theorem getChunk_absent_region_twice :
    exampleWorld.World_getRegion (ChunkPos.getRegion ⟨33, 33⟩) = none ∧
    (getChunk exampleWorld ⟨33, 33⟩ init).1 = none ∧
    ((getChunk exampleWorld ⟨33, 33⟩ init).2.chunkcache.Get ⟨33, 33⟩) = none ∧
    (getChunk exampleWorld ⟨33, 33⟩ (getChunk exampleWorld ⟨33, 33⟩ init).2).1 = none ∧
    (getChunk exampleWorld ⟨33, 33⟩ (getChunk exampleWorld ⟨33, 33⟩ init).2).2.chunkstats
      = { CacheStats.init with region_not_found := 2 } ∧
    (getChunk exampleWorld ⟨33, 33⟩ (getChunk exampleWorld ⟨33, 33⟩ init).2).2.regionstats
      = { CacheStats.init with region_not_found := 1, hits := 1 } := by
  decide

/-- A chunk-cache hit: `getChunk` returns the stored value and only
`chunkstats.hits` changes. -/
theorem getChunk_hit (world : Collaborators RegionFile Chunk) (pos : ChunkPos)
    (s : WorldCache RegionFile Chunk) (v : Option Chunk) (h : s.chunkcache.Get pos = some v) :
    getChunk world pos s =
      (v, { s with chunkstats := { s.chunkstats with hits := s.chunkstats.hits + 1 } }) := by
  simp [getChunk, h]

/-- C7: `getChunk(pos)` on a chunk-cache miss whose region resolves to a
loaded region `region` (leaving the state `s1`). Status
`CHUNK_DOES_NOT_EXIST`: null is stored for `pos`, only `not_found` is counted,
null is returned. Any other status but `CHUNK_OK`: null is stored, only
`invalid` is counted, null is returned. `CHUNK_OK`: the decoded chunk is
stored, only `misses` is counted, the chunk is returned. In each case
`loadChunk` was called once, and a `getChunk(pos)` repeated at once is a
chunk-cache hit with the same result that counts `hits` and calls nothing. -/
theorem getChunk_load_cases (world : Collaborators RegionFile Chunk) (pos : ChunkPos)
    (s s1 : WorldCache RegionFile Chunk) (region : RegionFile)
    (hmiss : s.chunkcache.Get pos = none)
    (hregion : getRegion world pos.getRegion s = (some region, s1)) :
    ((world.RegionFile_loadChunk region pos).1 = world.CHUNK_DOES_NOT_EXIST →
      getChunk world pos s =
        (none, { s1 with
          chunkcache := s1.chunkcache.Put pos none
          chunkstats := { s1.chunkstats with not_found := s1.chunkstats.not_found + 1 }
          calls := s1.calls ++ [ExtCall.loadChunk pos] })) ∧
    ((world.RegionFile_loadChunk region pos).1 ≠ world.CHUNK_DOES_NOT_EXIST →
      (world.RegionFile_loadChunk region pos).1 ≠ world.CHUNK_OK →
      getChunk world pos s =
        (none, { s1 with
          chunkcache := s1.chunkcache.Put pos none
          chunkstats := { s1.chunkstats with invalid := s1.chunkstats.invalid + 1 }
          calls := s1.calls ++ [ExtCall.loadChunk pos] })) ∧
    ((world.RegionFile_loadChunk region pos).1 = world.CHUNK_OK →
      getChunk world pos s =
        (some (world.RegionFile_loadChunk region pos).2, { s1 with
          chunkcache := s1.chunkcache.Put pos (some (world.RegionFile_loadChunk region pos).2)
          chunkstats := { s1.chunkstats with misses := s1.chunkstats.misses + 1 }
          calls := s1.calls ++ [ExtCall.loadChunk pos] })) ∧
    getChunk world pos (getChunk world pos s).2 =
      ((getChunk world pos s).1, { (getChunk world pos s).2 with
        chunkstats := { (getChunk world pos s).2.chunkstats with
          hits := (getChunk world pos s).2.chunkstats.hits + 1 } }) := by
  have hne := world.CHUNK_OK_ne
  have hcases : (getChunk world pos s).2.chunkcache.Get pos = some (getChunk world pos s).1 := by
    simp only [getChunk, hmiss, hregion]
    split_ifs <;> exact PositionCache.Get_Put_eq _ _ _
  refine ⟨?_, ?_, ?_, ?_⟩
  · intro h
    simp [getChunk, hmiss, hregion, h]
  · intro h1 h2
    simp [getChunk, hmiss, hregion, h1, h2]
  · intro h
    have h1 : ¬ world.CHUNK_OK = world.CHUNK_DOES_NOT_EXIST := hne
    simp [getChunk, hmiss, hregion, h, h1]
  · exact getChunk_hit world pos _ _ hcases

theorem getChunk_load_cases_witness :
    getChunk exampleWorld ⟨1, 0⟩ init =
        (none, { (getRegion exampleWorld ⟨0, 0⟩ init).2 with
          chunkcache := (getRegion exampleWorld ⟨0, 0⟩ init).2.chunkcache.Put ⟨1, 0⟩ none
          chunkstats := { (getRegion exampleWorld ⟨0, 0⟩ init).2.chunkstats with
            invalid := (getRegion exampleWorld ⟨0, 0⟩ init).2.chunkstats.invalid + 1 }
          calls := (getRegion exampleWorld ⟨0, 0⟩ init).2.calls ++ [ExtCall.loadChunk ⟨1, 0⟩] }) ∧
    getChunk exampleWorld ⟨1, 0⟩ (getChunk exampleWorld ⟨1, 0⟩ init).2 =
        ((getChunk exampleWorld ⟨1, 0⟩ init).1, { (getChunk exampleWorld ⟨1, 0⟩ init).2 with
          chunkstats := { (getChunk exampleWorld ⟨1, 0⟩ init).2.chunkstats with
            hits := (getChunk exampleWorld ⟨1, 0⟩ init).2.chunkstats.hits + 1 } }) :=
  ⟨(getChunk_load_cases exampleWorld ⟨1, 0⟩ init (getRegion exampleWorld ⟨0, 0⟩ init).2 ⟨0, 0⟩
      (by decide) rfl).2.1 (by decide) (by decide),
   (getChunk_load_cases exampleWorld ⟨1, 0⟩ init (getRegion exampleWorld ⟨0, 0⟩ init).2 ⟨0, 0⟩
      (by decide) rfl).2.2.2⟩

/-- C8: for a position with `y < 0`, whatever the state, the chunk hint and
the field mask, `getBlock` returns the default `Block` (position `(0,0,0)`,
`id = 0`, `biome = 0`, `block_light = 0`, `sky_light = 15`, `fields_set = 0`)
and the whole state (both caches, all counters, the record of calls to the
world source) is the one it started from. -/
theorem getBlock_below_floor (world : Collaborators RegionFile Chunk) (pos : BlockPos)
    (chunk : Option Chunk) (get : Int) (s : WorldCache RegionFile Chunk) (hy : pos.y < 0) :
    getBlock world pos chunk get s =
      ({ pos := ⟨0, 0, 0⟩, id := 0, biome := 0, block_light := 0, sky_light := 15,
         fields_set := 0 }, s) := by
  simp [getBlock, hy, Block.init]

theorem getBlock_below_floor_witness :
    getBlock exampleWorld ⟨3, 4, -1⟩ (some ⟨0, 0⟩) 29 (getChunk exampleWorld ⟨0, 0⟩ init).2 =
      ({ pos := ⟨0, 0, 0⟩, id := 0, biome := 0, block_light := 0, sky_light := 15,
         fields_set := 0 }, (getChunk exampleWorld ⟨0, 0⟩ init).2) :=
  getBlock_below_floor exampleWorld ⟨3, 4, -1⟩ (some ⟨0, 0⟩) 29
    (getChunk exampleWorld ⟨0, 0⟩ init).2 (by decide)

theorem and_lt_32 (n k : Nat) (hk : k < 32) : n &&& k = (n % 32) &&& k := by
  have h31 : 31 &&& k = k := by
    interval_cases k <;> decide
  have hmod : n &&& 31 = n % 32 := Nat.and_pow_two_sub_one_eq_mod n 5
  rw [← hmod, Nat.and_assoc, h31]

/-- The `fields_set` of a block read from a chunk is the mask restricted to
the four flags. -/
theorem readBlock_fields_set (world : Collaborators RegionFile Chunk) (pos : BlockPos)
    (mychunk : Chunk) (get : Int) :
    (readBlock world pos mychunk get).fields_set =
      andInt32 get (orInt32 (orInt32 (orInt32 GET_ID GET_BIOME) GET_BLOCK_LIGHT) GET_SKY_LIGHT) := by
  have e29 : toUInt32 (orInt32 (orInt32 (orInt32 GET_ID GET_BIOME) GET_BLOCK_LIGHT)
      GET_SKY_LIGHT) = 29 := by decide
  have e1 : toUInt32 GET_ID = 1 := by decide
  have e4 : toUInt32 GET_BIOME = 4 := by decide
  have e8 : toUInt32 GET_BLOCK_LIGHT = 8 := by decide
  have e16 : toUInt32 GET_SKY_LIGHT = 16 := by decide
  simp only [readBlock, andInt32, e29, e1, e4, e8, e16]
  rw [and_lt_32 _ 1 (by decide), and_lt_32 _ 4 (by decide), and_lt_32 _ 8 (by decide),
    and_lt_32 _ 16 (by decide), and_lt_32 _ 29 (by decide)]
  have hr : toUInt32 get % 32 < 32 := Nat.mod_lt _ (by decide)
  generalize toUInt32 get % 32 = r at hr
  interval_cases r <;>
    simp +decide only [ne_eq, not_true_eq_false, not_false_eq_true, ite_true, ite_false,
      Block.init]

/-- The position and the four data fields of a block read from a chunk. -/
theorem readBlock_fields (world : Collaborators RegionFile Chunk) (pos : BlockPos)
    (mychunk : Chunk) (get : Int) :
    (readBlock world pos mychunk get).pos = pos ∧
    (readBlock world pos mychunk get).id =
      (if andInt32 get GET_ID ≠ 0
        then world.Chunk_getBlockID mychunk (LocalBlockPos.ofBlockPos pos) else 0) ∧
    (readBlock world pos mychunk get).biome =
      (if andInt32 get GET_BIOME ≠ 0
        then world.Chunk_getBiomeAt mychunk (LocalBlockPos.ofBlockPos pos) else 0) ∧
    (readBlock world pos mychunk get).block_light =
      (if andInt32 get GET_BLOCK_LIGHT ≠ 0
        then world.Chunk_getBlockLight mychunk (LocalBlockPos.ofBlockPos pos) else 0) ∧
    (readBlock world pos mychunk get).sky_light =
      (if andInt32 get GET_SKY_LIGHT ≠ 0
        then world.Chunk_getSkyLight mychunk (LocalBlockPos.ofBlockPos pos) else 15) := by
  unfold readBlock
  refine ⟨?_, ?_, ?_, ?_, ?_⟩ <;> dsimp only <;> split_ifs <;> rfl

/-- `getBlock` without a chunk hint, for `y ≥ 0`: the chunk comes from
`getChunk`, whose state is the resulting state. -/
theorem getBlock_no_hint (world : Collaborators RegionFile Chunk) (pos : BlockPos) (get : Int)
    (s : WorldCache RegionFile Chunk) (hy : 0 ≤ pos.y) :
    getBlock world pos none get s =
      (match (getChunk world (ChunkPos.ofBlockPos pos) s).1 with
        | none => Block.init
        | some mychunk => readBlock world pos mychunk get,
       (getChunk world (ChunkPos.ofBlockPos pos) s).2) := by
  have hy' : ¬ pos.y < 0 := not_lt.mpr hy
  simp only [getBlock, hy', if_false]
  rcases getChunk world (ChunkPos.ofBlockPos pos) s with ⟨c, s1⟩
  cases c <;> rfl

/-- C9: for `y ≥ 0` and no chunk hint, when `getChunk` resolves the chunk of
`pos` to `c`, `getBlock(pos, null, get)` returns a block with `pos = pos` and
`fields_set = get & (GET_ID | GET_BIOME | GET_BLOCK_LIGHT | GET_SKY_LIGHT)`,
in which each field whose flag is in `get` is the value of the accessor of
`c` at `LocalBlockPos(pos)` and each other field has its default (`0`, and
`15` for `sky_light`); when the chunk does not resolve, the block is the
default one, with `fields_set = 0`. -/
theorem getBlock_fields (world : Collaborators RegionFile Chunk) (pos : BlockPos) (get : Int)
    (s : WorldCache RegionFile Chunk) (hy : 0 ≤ pos.y) :
    (∀ c, (getChunk world (ChunkPos.ofBlockPos pos) s).1 = some c →
      (getBlock world pos none get s).1.pos = pos ∧
      (getBlock world pos none get s).1.fields_set =
        andInt32 get
          (orInt32 (orInt32 (orInt32 GET_ID GET_BIOME) GET_BLOCK_LIGHT) GET_SKY_LIGHT) ∧
      (getBlock world pos none get s).1.id =
        (if andInt32 get GET_ID ≠ 0
          then world.Chunk_getBlockID c (LocalBlockPos.ofBlockPos pos) else 0) ∧
      (getBlock world pos none get s).1.biome =
        (if andInt32 get GET_BIOME ≠ 0
          then world.Chunk_getBiomeAt c (LocalBlockPos.ofBlockPos pos) else 0) ∧
      (getBlock world pos none get s).1.block_light =
        (if andInt32 get GET_BLOCK_LIGHT ≠ 0
          then world.Chunk_getBlockLight c (LocalBlockPos.ofBlockPos pos) else 0) ∧
      (getBlock world pos none get s).1.sky_light =
        (if andInt32 get GET_SKY_LIGHT ≠ 0
          then world.Chunk_getSkyLight c (LocalBlockPos.ofBlockPos pos) else 15)) ∧
    ((getChunk world (ChunkPos.ofBlockPos pos) s).1 = none →
      (getBlock world pos none get s).1 = Block.init ∧
      (getBlock world pos none get s).1.fields_set = 0) := by
  rw [getBlock_no_hint world pos get s hy]
  constructor
  · intro c hc
    simp only [hc]
    exact ⟨(readBlock_fields world pos c get).1, readBlock_fields_set world pos c get,
      (readBlock_fields world pos c get).2⟩
  · intro hc
    rw [hc]
    exact ⟨rfl, rfl⟩

theorem getBlock_fields_witness :
    (getChunk exampleWorld (ChunkPos.ofBlockPos ⟨3, 4, 5⟩) init).1 = some ⟨0, 0⟩ ∧
    LocalBlockPos.ofBlockPos ⟨3, 4, 5⟩ = ⟨3, 4, 5⟩ ∧
    (getBlock exampleWorld ⟨3, 4, 5⟩ none GET_ID init).1.fields_set = GET_ID ∧
    (getBlock exampleWorld ⟨3, 4, 5⟩ none GET_ID init).1.id = 7 := by
  have h := (getBlock_fields exampleWorld ⟨3, 4, 5⟩ GET_ID init (by decide)).1 ⟨0, 0⟩
    (by decide)
  refine ⟨by decide, by decide, ?_, ?_⟩
  · rw [h.2.1]
    decide
  · rw [h.2.2.1]
    decide

theorem consistent_init (world : Collaborators RegionFile Chunk) :
    Consistent world (init : WorldCache RegionFile Chunk) := by
  constructor
  · intro i h
    exact absurd rfl h
  · intro i
    exact Or.inl rfl

theorem getRegion_consistent (world : Collaborators RegionFile Chunk) (pos : RegionPos)
    (s : WorldCache RegionFile Chunk) (hs : Consistent world s) :
    Consistent world (getRegion world pos s).2 ∧
    ((getRegion world pos s).1 ≠ none → world.World_getRegion pos ≠ none) := by
  cases hget : s.regioncache.Get pos with
  | some v =>
    rw [getRegion_hit world pos s v hget]
    refine ⟨hs, ?_⟩
    intro hv
    obtain ⟨hkey, hval⟩ := PositionCache.Get_eq_some _ _ _ hget
    have hb := hs.1 (PositionCache.slot 2 pos)
    unfold RegionBucketOK at hb
    rw [hkey, hval] at hb
    exact hb hv
  | none =>
    cases hw : world.World_getRegion pos with
    | none =>
      rw [getRegion_absent world pos s hget hw]
      refine ⟨⟨?_, hs.2⟩, fun h => absurd rfl h⟩
      exact PositionCache.Put_forall _ _ _ _ hs.1 (fun h => absurd rfl h)
    | some raw =>
      cases hr : world.RegionFile_read raw with
      | none =>
        rw [getRegion_invalid world pos s raw hget hw hr]
        refine ⟨⟨?_, hs.2⟩, fun h => absurd rfl h⟩
        exact PositionCache.Put_forall _ _ _ _ hs.1 (fun h => absurd rfl h)
      | some region =>
        rw [getRegion_loaded world pos s raw region hget hw hr]
        refine ⟨⟨?_, hs.2⟩, fun _ => by simp⟩
        refine PositionCache.Put_forall _ _ _ _ hs.1 ?_
        intro _
        show world.World_getRegion pos ≠ none
        rw [hw]
        simp

theorem getChunk_consistent (world : Collaborators RegionFile Chunk) (pos : ChunkPos)
    (s : WorldCache RegionFile Chunk) (hs : Consistent world s) :
    Consistent world (getChunk world pos s).2 := by
  cases hget : s.chunkcache.Get pos with
  | some v =>
    rw [getChunk_hit world pos s v hget]
    exact hs
  | none =>
    obtain ⟨hs1, hex⟩ := getRegion_consistent world pos.getRegion s hs
    simp only [getChunk, hget]
    rcases hreg : getRegion world pos.getRegion s with ⟨r, s1⟩
    rw [hreg] at hs1 hex
    cases r with
    | none => exact hs1
    | some region =>
      have hok : ∀ v : Option Chunk, ChunkBucketOK world ⟨pos, v⟩ :=
        fun _ => Or.inr (hex (by simp))
      dsimp only
      split_ifs
      · exact ⟨hs1.1, PositionCache.Put_forall _ _ _ _ hs1.2 (hok _)⟩
      · exact ⟨hs1.1, PositionCache.Put_forall _ _ _ _ hs1.2 (hok _)⟩
      · exact ⟨hs1.1, PositionCache.Put_forall _ _ _ _ hs1.2 (hok _)⟩

theorem getBlock_state (world : Collaborators RegionFile Chunk) (pos : BlockPos)
    (chunk : Option Chunk) (get : Int) (s : WorldCache RegionFile Chunk) :
    (getBlock world pos chunk get s).2 = s ∨
    (getBlock world pos chunk get s).2 = (getChunk world (ChunkPos.ofBlockPos pos) s).2 := by
  unfold getBlock
  split_ifs with hy
  · exact Or.inl rfl
  · cases chunk with
    | none =>
      right
      dsimp only
      generalize getChunk world (ChunkPos.ofBlockPos pos) s = r
      rcases r with ⟨c, s1⟩
      cases c <;> rfl
    | some c0 =>
      dsimp only
      split_ifs
      · right
        generalize getChunk world (ChunkPos.ofBlockPos pos) s = r
        rcases r with ⟨c, s1⟩
        cases c <;> rfl
      · exact Or.inl rfl

theorem getBlock_consistent (world : Collaborators RegionFile Chunk) (pos : BlockPos)
    (chunk : Option Chunk) (get : Int) (s : WorldCache RegionFile Chunk)
    (hs : Consistent world s) : Consistent world (getBlock world pos chunk get s).2 := by
  rcases getBlock_state world pos chunk get s with h | h
  · rw [h]
    exact hs
  · rw [h]
    exact getChunk_consistent world (ChunkPos.ofBlockPos pos) s hs

theorem run_consistent (world : Collaborators RegionFile Chunk) (ops : List (Op Chunk)) :
    Consistent world (run world ops) := by
  have hfold : ∀ (l : List (Op Chunk)) (s : WorldCache RegionFile Chunk),
      Consistent world s → Consistent world (l.foldl (step world) s) := by
    intro l
    induction l with
    | nil => exact fun _ hs => hs
    | cons op rest ih =>
      intro s hs
      apply ih
      cases op with
      | getRegion pos => exact (getRegion_consistent world pos s hs).1
      | getChunk pos => exact getChunk_consistent world pos s hs
      | getBlock pos chunk get => exact getBlock_consistent world pos chunk get s hs
  exact hfold ops init (consistent_init world)


theorem ofBlockPos_ne_sentinel (pos : BlockPos) (hx : isInt32 pos.x) :
    ChunkPos.ofBlockPos pos ≠ ⟨kDefaultValue, kDefaultValue⟩ := by
  intro h
  have hx' : floordiv pos.x 16 = kDefaultValue := congrArg ChunkPos.x h
  unfold floordiv kDefaultValue at hx'
  rw [Int.fdiv_eq_ediv _ (by decide)] at hx'
  unfold isInt32 at hx
  omega

theorem chunk_miss_of_absent (world : Collaborators RegionFile Chunk) (cp : ChunkPos)
    (s : WorldCache RegionFile Chunk) (hs : Consistent world s)
    (hne : cp ≠ ⟨kDefaultValue, kDefaultValue⟩)
    (habs : world.World_getRegion cp.getRegion = none) : s.chunkcache.Get cp = none := by
  apply PositionCache.Get_eq_none_of_key_ne
  intro hkey
  rcases hs.2 (PositionCache.slot 5 cp) with h | h
  · rw [hkey] at h
    exact hne h
  · rw [hkey] at h
    exact h habs

theorem getChunk_region_null (world : Collaborators RegionFile Chunk) (pos : ChunkPos)
    (s s1 : WorldCache RegionFile Chunk) (hmiss : s.chunkcache.Get pos = none)
    (hregion : getRegion world pos.getRegion s = (none, s1)) :
    getChunk world pos s =
      (none, { s1 with
        chunkstats := { s1.chunkstats with
          region_not_found := s1.chunkstats.region_not_found + 1 } }) := by
  simp [getChunk, hmiss, hregion]

theorem getBlock_absent_later (world : Collaborators RegionFile Chunk) (pos : BlockPos)
    (get : Int) (s : WorldCache RegionFile Chunk) (hy : 0 ≤ pos.y)
    (hcm : s.chunkcache.Get (ChunkPos.ofBlockPos pos) = none)
    (hrn : s.regioncache.Get (ChunkPos.ofBlockPos pos).getRegion = some none) :
    getBlock world pos none get s =
      (Block.init, { s with
        regionstats := { s.regionstats with hits := s.regionstats.hits + 1 }
        chunkstats := { s.chunkstats with
          region_not_found := s.chunkstats.region_not_found + 1 } }) := by
  rw [getBlock_no_hint world pos get s hy,
    getChunk_region_null world _ s _ hcm (getRegion_hit world _ s none hrn)]

theorem getBlock_absent_first (world : Collaborators RegionFile Chunk) (pos : BlockPos)
    (get : Int) (s : WorldCache RegionFile Chunk) (hy : 0 ≤ pos.y)
    (hs : Consistent world s)
    (hcm : s.chunkcache.Get (ChunkPos.ofBlockPos pos) = none)
    (habs : world.World_getRegion (ChunkPos.ofBlockPos pos).getRegion = none) :
    ((getBlock world pos none get s).2.calls = s.calls ∨
      (getBlock world pos none get s).2.calls =
        s.calls ++ [ExtCall.worldGetRegion (ChunkPos.ofBlockPos pos).getRegion]) ∧
    (getBlock world pos none get s).2.chunkcache.Get (ChunkPos.ofBlockPos pos) = none ∧
    (getBlock world pos none get s).2.regioncache.Get (ChunkPos.ofBlockPos pos).getRegion
      = some none := by
  cases hget : s.regioncache.Get (ChunkPos.ofBlockPos pos).getRegion with
  | some v =>
    have hv : v = none := by
      have hgr := getRegion_consistent world (ChunkPos.ofBlockPos pos).getRegion s hs
      rw [getRegion_hit world _ s v hget] at hgr
      by_contra hne
      exact hgr.2 hne habs
    subst hv
    rw [getBlock_absent_later world pos get s hy hcm hget]
    exact ⟨Or.inl rfl, hcm, hget⟩
  | none =>
    rw [getBlock_no_hint world pos get s hy,
      getChunk_region_null world _ s _ hcm (getRegion_absent world _ s hget habs)]
    exact ⟨Or.inr rfl, hcm, PositionCache.Get_Put_eq _ _ _⟩

theorem getBlocks_absent (world : Collaborators RegionFile Chunk) (pos : BlockPos)
    (gets : List Int) (s : WorldCache RegionFile Chunk) (hy : 0 ≤ pos.y)
    (hcm : s.chunkcache.Get (ChunkPos.ofBlockPos pos) = none)
    (hrn : s.regioncache.Get (ChunkPos.ofBlockPos pos).getRegion = some none) :
    (getBlocks world pos gets s).chunkcache.Get (ChunkPos.ofBlockPos pos) = none ∧
    (getBlocks world pos gets s).regioncache.Get (ChunkPos.ofBlockPos pos).getRegion
      = some none ∧
    (getBlocks world pos gets s).calls = s.calls := by
  induction gets generalizing s with
  | nil => exact ⟨hcm, hrn, rfl⟩
  | cons g rest ih =>
    have hstep : getBlocks world pos (g :: rest) s =
        getBlocks world pos rest (getBlock world pos none g s).2 := rfl
    rw [hstep, getBlock_absent_later world pos g s hy hcm hrn]
    exact ih _ hcm hrn

/-- C6: in every state a world cache can be in (after any method calls),
for a block position with `y ≥ 0` whose region file is absent, a run of
`getBlock(pos, null, mask)` calls asks the world source for that region at
most once, in its first call: the first call adds nothing or that single
probe to the record of calls, and every later call of the run, whatever
the masks, calls nothing, returns the default block, counts
`regionstats.hits` and leaves the other region counters (among them
`region_not_found`) as they were. -/
theorem getBlock_absent_region_probed_once (world : Collaborators RegionFile Chunk)
    (ops : List (Op Chunk)) (pos : BlockPos) (hx : isInt32 pos.x) (hy : 0 ≤ pos.y)
    (habs : world.World_getRegion (ChunkPos.ofBlockPos pos).getRegion = none)
    (get : Int) :
    ((getBlock world pos none get (run world ops)).2.calls = (run world ops).calls ∨
      (getBlock world pos none get (run world ops)).2.calls =
        (run world ops).calls ++
          [ExtCall.worldGetRegion (ChunkPos.ofBlockPos pos).getRegion]) ∧
    (∀ (gets : List Int) (get' : Int),
      (getBlocks world pos gets (getBlock world pos none get (run world ops)).2).calls =
        (getBlock world pos none get (run world ops)).2.calls ∧
      getBlock world pos none get'
          (getBlocks world pos gets (getBlock world pos none get (run world ops)).2) =
        (Block.init,
          { getBlocks world pos gets (getBlock world pos none get (run world ops)).2 with
            regionstats :=
              { (getBlocks world pos gets
                  (getBlock world pos none get (run world ops)).2).regionstats with
                hits := (getBlocks world pos gets
                  (getBlock world pos none get (run world ops)).2).regionstats.hits + 1 }
            chunkstats :=
              { (getBlocks world pos gets
                  (getBlock world pos none get (run world ops)).2).chunkstats with
                region_not_found := (getBlocks world pos gets
                  (getBlock world pos none get
                    (run world ops)).2).chunkstats.region_not_found + 1 } })) := by
  have hs := run_consistent world ops
  have hcm := chunk_miss_of_absent world (ChunkPos.ofBlockPos pos) (run world ops) hs
    (ofBlockPos_ne_sentinel pos hx) habs
  obtain ⟨h1, h2, h3⟩ := getBlock_absent_first world pos get (run world ops) hy hs hcm habs
  refine ⟨h1, ?_⟩
  intro gets get'
  obtain ⟨g1, g2, g3⟩ := getBlocks_absent world pos gets _ hy h2 h3
  exact ⟨g3, getBlock_absent_later world pos get' _ hy g1 g2⟩

theorem getBlock_absent_region_probed_once_witness :
    isInt32 528 ∧
    exampleWorld.World_getRegion (ChunkPos.ofBlockPos ⟨528, 528, 0⟩).getRegion = none ∧
    (getBlock exampleWorld ⟨528, 528, 0⟩ none 1 (run exampleWorld [Op.getChunk ⟨0, 0⟩])).2.calls
      = (run exampleWorld [Op.getChunk ⟨0, 0⟩]).calls ++ [ExtCall.worldGetRegion ⟨1, 1⟩] ∧
    (getBlocks exampleWorld ⟨528, 528, 0⟩ [4, 29]
        (getBlock exampleWorld ⟨528, 528, 0⟩ none 1
          (run exampleWorld [Op.getChunk ⟨0, 0⟩])).2).calls =
      (getBlock exampleWorld ⟨528, 528, 0⟩ none 1
        (run exampleWorld [Op.getChunk ⟨0, 0⟩])).2.calls :=
  ⟨by decide, by decide, by decide,
   ((getBlock_absent_region_probed_once exampleWorld [Op.getChunk ⟨0, 0⟩] ⟨528, 528, 0⟩
      (by decide) (by decide) (by decide) 1).2 [4, 29] 0).1⟩

end WorldCache

namespace ChunkPos

theorem wrapInt32_of_isInt32 (v : Int) (h : isInt32 v) : wrapInt32 v = v := by
  unfold isInt32 at h
  unfold wrapInt32
  omega

/-- C10 as stated fails at the ends of the `int` range. For `x = 2^30`,
`z = 0` both `z - x` and `x + z` are representable, but `col - row = 2^31`
is not and `byRowCol(getRow, getCol)` is `ChunkPos(-2^30, 0)`. For
`row = col = 2^30` the sum is even, but `col + row = 2^31` is not
representable and `byRowCol(row, col).getRow()` is `-2^30`. -/
theorem byRowCol_counter :
    isInt32 (0 - 1073741824) ∧ isInt32 (1073741824 + 0) ∧
    byRowCol (getRow ⟨1073741824, 0⟩) (getCol ⟨1073741824, 0⟩) = ⟨-1073741824, 0⟩ ∧
    byRowCol (getRow ⟨1073741824, 0⟩) (getCol ⟨1073741824, 0⟩) ≠ ⟨1073741824, 0⟩ ∧
    (1073741824 + 1073741824 : Int) % 2 = 0 ∧
    getRow (byRowCol 1073741824 1073741824) = -1073741824 ∧
    getRow (byRowCol 1073741824 1073741824) ≠ 1073741824 := by
  decide

/-- C10 (amended): for all `x`, `z` for which `z - x`, `x + z`, `2 * x` and
`2 * z` are representable as `int`,
`byRowCol(ChunkPos(x,z).getRow(), ChunkPos(x,z).getCol()) == ChunkPos(x,z)`;
and for all `int`s `row`, `col` with `row + col` even for which `col - row`
and `col + row` are representable as `int`, `byRowCol(row, col).getRow() == row`
and `byRowCol(row, col).getCol() == col`, negative values included. -/
theorem byRowCol_inverse :
    (∀ x z : Int, isInt32 (z - x) → isInt32 (x + z) → isInt32 (2 * x) → isInt32 (2 * z) →
      byRowCol (getRow ⟨x, z⟩) (getCol ⟨x, z⟩) = ⟨x, z⟩) ∧
    (∀ row col : Int, isInt32 row → isInt32 col → (row + col) % 2 = 0 →
      isInt32 (col - row) → isInt32 (col + row) →
      getRow (byRowCol row col) = row ∧ getCol (byRowCol row col) = col) := by
  constructor
  · intro x z h1 h2 h3 h4
    simp only [byRowCol, getRow, getCol]
    rw [wrapInt32_of_isInt32 _ h1, wrapInt32_of_isInt32 _ h2]
    have e1 : x + z - (z - x) = 2 * x := by ring
    have e2 : x + z + (z - x) = 2 * z := by ring
    rw [e1, e2, wrapInt32_of_isInt32 _ h3, wrapInt32_of_isInt32 _ h4]
    rw [Int.mul_tdiv_cancel_left _ (by decide), Int.mul_tdiv_cancel_left _ (by decide)]
  · intro row col hr hc hev h1 h2
    obtain ⟨a, ha⟩ : ∃ a, col - row = 2 * a := ⟨(col - row) / 2, by omega⟩
    obtain ⟨b, hb⟩ : ∃ b, col + row = 2 * b := ⟨(col + row) / 2, by omega⟩
    simp only [byRowCol, getRow, getCol]
    rw [wrapInt32_of_isInt32 _ h1, wrapInt32_of_isInt32 _ h2, ha, hb,
      Int.mul_tdiv_cancel_left _ (by decide), Int.mul_tdiv_cancel_left _ (by decide)]
    have e1 : b - a = row := by omega
    have e2 : a + b = col := by omega
    rw [e1, e2, wrapInt32_of_isInt32 _ hr, wrapInt32_of_isInt32 _ hc]
    exact ⟨rfl, rfl⟩

theorem byRowCol_inverse_witness :
    byRowCol (getRow ⟨-3, 5⟩) (getCol ⟨-3, 5⟩) = ⟨-3, 5⟩ ∧
    (getRow (byRowCol (-7) 3) = -7 ∧ getCol (byRowCol (-7) 3) = 3) :=
  ⟨byRowCol_inverse.1 (-3) 5 (by decide) (by decide) (by decide) (by decide),
   byRowCol_inverse.2 (-7) 3 (by decide) (by decide) (by decide) (by decide) (by decide)⟩

/-- C11 as stated fails: `byRowCol` has no failure path. For `row = 0`,
`col = 1` (odd sum) it returns `ChunkPos(0, 0)`, and for `row = -3`,
`col = 0` it returns `ChunkPos(1, -1)`. -/
theorem byRowCol_odd_returns :
    (0 + 1 : Int) % 2 = 1 ∧ byRowCol 0 1 = ⟨0, 0⟩ ∧
    (-3 + 0 : Int) % 2 = 1 ∧ byRowCol (-3) 0 = ⟨1, -1⟩ := by
  decide

theorem wrapInt32_emod_two (v : Int) : wrapInt32 v % 2 = v % 2 := by
  unfold wrapInt32
  omega

/-- C11 (amended): for every `row` and `col` whose sum is odd, `byRowCol`
does not fail; it returns `ChunkPos((col - row) / 2, (col + row) / 2)` with
the `int` division that truncates toward zero, a position that is not mapped
back to `(row, col)`: the sum of its `getRow()` and `getCol()` is even. -/
theorem byRowCol_odd (row col : Int) (hodd : (row + col) % 2 = 1) :
    byRowCol row col =
      ⟨Int.tdiv (wrapInt32 (col - row)) 2, Int.tdiv (wrapInt32 (col + row)) 2⟩ ∧
    (getRow (byRowCol row col) + getCol (byRowCol row col)) % 2 = 0 ∧
    (getRow (byRowCol row col), getCol (byRowCol row col)) ≠ (row, col) := by
  have heven : (getRow (byRowCol row col) + getCol (byRowCol row col)) % 2 = 0 := by
    have h1 := wrapInt32_emod_two ((byRowCol row col).z - (byRowCol row col).x)
    have h2 := wrapInt32_emod_two ((byRowCol row col).x + (byRowCol row col).z)
    unfold getRow getCol
    omega
  refine ⟨rfl, heven, ?_⟩
  intro h
  have hr : getRow (byRowCol row col) = row := congrArg Prod.fst h
  have hc : getCol (byRowCol row col) = col := congrArg Prod.snd h
  rw [hr, hc] at heven
  omega

theorem byRowCol_odd_witness :
    byRowCol 2 5 = ⟨Int.tdiv (wrapInt32 (5 - 2)) 2, Int.tdiv (wrapInt32 (5 + 2)) 2⟩ ∧
    (getRow (byRowCol 2 5) + getCol (byRowCol 2 5)) % 2 = 0 ∧
    (getRow (byRowCol 2 5), getCol (byRowCol 2 5)) ≠ (2, 5) :=
  byRowCol_odd 2 5 (by decide)

end ChunkPos

theorem wrapInt32_neg_neg (x : Int) (hx : isInt32 x) : wrapInt32 (-wrapInt32 (-x)) = x := by
  unfold isInt32 at hx
  unfold wrapInt32
  omega

theorem wrapInt32_sub_sub (x : Int) (hx : isInt32 x) :
    wrapInt32 (31 - wrapInt32 (31 - x)) = x := by
  unfold isInt32 at hx
  unfold wrapInt32
  omega

theorem RegionPos.rotateStep_four_region (p : RegionPos) (hx : isInt32 p.x) (hz : isInt32 p.z) :
    p.rotateStep.rotateStep.rotateStep.rotateStep = p := by
  cases p with
  | mk x z =>
    simp only [RegionPos.rotateStep]
    rw [wrapInt32_neg_neg x hx, wrapInt32_neg_neg z hz]

theorem ChunkPos.rotateStep_four_chunk (p : ChunkPos) (hx : isInt32 p.x) (hz : isInt32 p.z) :
    p.rotateStep.rotateStep.rotateStep.rotateStep = p := by
  cases p with
  | mk x z =>
    simp only [ChunkPos.rotateStep]
    rw [wrapInt32_sub_sub x hx, wrapInt32_sub_sub z hz]

/-- C12: for all `int`s `x`, `z`, four successive `rotate(1)` calls on
`RegionPos(x, z)` give `RegionPos(x, z)` back, and so does one `rotate(4)`;
the same holds for `ChunkPos(x, z)`. One step is `(x, z) -> (-z, x)` for a
`RegionPos` and `(x, z) -> (31 - z, x)` for a `ChunkPos` (the new `x`
computed in `int`). -/
theorem rotate_four_times (x z : Int) (hx : isInt32 x) (hz : isInt32 z) :
    RegionPos.rotate 1 ⟨x, z⟩ = ⟨wrapInt32 (-z), x⟩ ∧
    (isInt32 (-z) → RegionPos.rotate 1 ⟨x, z⟩ = ⟨-z, x⟩) ∧
    RegionPos.rotate 1 (RegionPos.rotate 1 (RegionPos.rotate 1 (RegionPos.rotate 1 ⟨x, z⟩)))
      = ⟨x, z⟩ ∧
    RegionPos.rotate 4 ⟨x, z⟩ = ⟨x, z⟩ ∧
    ChunkPos.rotate 1 ⟨x, z⟩ = ⟨wrapInt32 (31 - z), x⟩ ∧
    (isInt32 (31 - z) → ChunkPos.rotate 1 ⟨x, z⟩ = ⟨31 - z, x⟩) ∧
    ChunkPos.rotate 1 (ChunkPos.rotate 1 (ChunkPos.rotate 1 (ChunkPos.rotate 1 ⟨x, z⟩)))
      = ⟨x, z⟩ ∧
    ChunkPos.rotate 4 ⟨x, z⟩ = ⟨x, z⟩ := by
  have hwrap : ∀ v : Int, isInt32 v → wrapInt32 v = v := by
    intro v hv
    unfold isInt32 at hv
    unfold wrapInt32
    omega
  refine ⟨rfl, ?_, ?_, ?_, rfl, ?_, ?_, ?_⟩
  · intro h
    show (⟨wrapInt32 (-z), x⟩ : RegionPos) = ⟨-z, x⟩
    rw [hwrap _ h]
  · exact RegionPos.rotateStep_four_region ⟨x, z⟩ hx hz
  · exact RegionPos.rotateStep_four_region ⟨x, z⟩ hx hz
  · intro h
    show (⟨wrapInt32 (31 - z), x⟩ : ChunkPos) = ⟨31 - z, x⟩
    rw [hwrap _ h]
  · exact ChunkPos.rotateStep_four_chunk ⟨x, z⟩ hx hz
  · exact ChunkPos.rotateStep_four_chunk ⟨x, z⟩ hx hz

theorem rotate_four_times_witness :
    RegionPos.rotate 1 (RegionPos.rotate 1 (RegionPos.rotate 1
      (RegionPos.rotate 1 ⟨-2147483648, 7⟩))) = ⟨-2147483648, 7⟩ ∧
    ChunkPos.rotate 4 ⟨-2147483648, 7⟩ = ⟨-2147483648, 7⟩ :=
  ⟨(rotate_four_times (-2147483648) 7 (by decide) (by decide)).2.2.1,
   (rotate_four_times (-2147483648) 7 (by decide) (by decide)).2.2.2.2.2.2.2⟩

theorem floordiv_eq_ediv (a : Int) (n : Nat) : floordiv a n = a / n :=
  Int.fdiv_eq_ediv a (Int.ofNat_nonneg n)

/-- C13: for every `BlockPos b`, `ChunkPos(b)` has `x = floor(b.x / 16)` and
`z = floor(b.z / 16)`, the floor of the exact quotient: `16 * x ≤ b.x <
16 * x + 16` and likewise for `z`, also for negative coordinates;
`ChunkPos(BlockPos(-1,-1,0))` is `ChunkPos(-1,-1)` and not `ChunkPos(0,0)`. -/
theorem ChunkPos.ofBlockPos_floor (b : BlockPos) :
    (ChunkPos.ofBlockPos b).x = ⌊(b.x : ℚ) / 16⌋ ∧
    (ChunkPos.ofBlockPos b).z = ⌊(b.z : ℚ) / 16⌋ ∧
    (16 * (ChunkPos.ofBlockPos b).x ≤ b.x ∧ b.x < 16 * (ChunkPos.ofBlockPos b).x + 16) ∧
    (16 * (ChunkPos.ofBlockPos b).z ≤ b.z ∧ b.z < 16 * (ChunkPos.ofBlockPos b).z + 16) ∧
    ChunkPos.ofBlockPos ⟨-1, -1, 0⟩ = ⟨-1, -1⟩ ∧
    ChunkPos.ofBlockPos ⟨-1, -1, 0⟩ ≠ ⟨0, 0⟩ := by
  have hx : (ChunkPos.ofBlockPos b).x = b.x / 16 := floordiv_eq_ediv b.x 16
  have hz : (ChunkPos.ofBlockPos b).z = b.z / 16 := floordiv_eq_ediv b.z 16
  refine ⟨?_, ?_, ?_, ?_, by decide, by decide⟩
  · rw [hx]
    exact (Rat.floor_intCast_div_natCast b.x 16).symm
  · rw [hz]
    exact (Rat.floor_intCast_div_natCast b.z 16).symm
  · rw [hx]
    omega
  · rw [hz]
    omega

theorem tmod_neg_left (a : Int) (n : Nat) : Int.tmod (-a) n = -Int.tmod a n := by
  have h1 := Int.tmod_def a n
  have h2 := Int.tmod_def (-a) n
  rw [Int.neg_tdiv] at h2
  rw [h1, h2]
  ring

theorem tmod16_norm (a : Int) :
    (if Int.tmod a 16 < 0 then Int.tmod a 16 + 16 else Int.tmod a 16) = a % 16 := by
  rcases le_or_lt 0 a with h | h
  · rw [Int.tmod_eq_emod h (by decide)]
    split_ifs <;> omega
  · have e : Int.tmod a 16 = -((-a) % 16) := by
      have h1 : Int.tmod (-a) 16 = (-a) % 16 := Int.tmod_eq_emod (by omega) (by decide)
      have h2 := tmod_neg_left a 16
      simp only [Nat.cast_ofNat] at h2
      omega
    rw [e]
    split_ifs <;> omega

theorem tmod32_norm (a : Int) :
    (if Int.tmod a 32 < 0 then Int.tmod a 32 + 32 else Int.tmod a 32) = a % 32 := by
  rcases le_or_lt 0 a with h | h
  · rw [Int.tmod_eq_emod h (by decide)]
    split_ifs <;> omega
  · have e : Int.tmod a 32 = -((-a) % 32) := by
      have h1 : Int.tmod (-a) 32 = (-a) % 32 := Int.tmod_eq_emod (by omega) (by decide)
      have h2 := tmod_neg_left a 32
      simp only [Nat.cast_ofNat] at h2
      omega
    rw [e]
    split_ifs <;> omega

theorem LocalBlockPos.ofBlockPos_eq (p : BlockPos) :
    LocalBlockPos.ofBlockPos p = ⟨p.x % 16, p.z % 16, p.y⟩ := by
  simp only [LocalBlockPos.ofBlockPos, tmod16_norm]

/-- C14: for every `BlockPos p` with `int` coordinates, negative ones
included, `LocalBlockPos(p)` has `x` and `z` in `[0, 16)` and `y = p.y`, and
`LocalBlockPos(p).toGlobalPos(ChunkPos(p)) == p`. -/
theorem LocalBlockPos.toGlobalPos_ofBlockPos (p : BlockPos) (hx : isInt32 p.x)
    (hz : isInt32 p.z) :
    (0 ≤ (LocalBlockPos.ofBlockPos p).x ∧ (LocalBlockPos.ofBlockPos p).x < 16) ∧
    (0 ≤ (LocalBlockPos.ofBlockPos p).z ∧ (LocalBlockPos.ofBlockPos p).z < 16) ∧
    (LocalBlockPos.ofBlockPos p).y = p.y ∧
    (LocalBlockPos.ofBlockPos p).toGlobalPos (ChunkPos.ofBlockPos p) = p ∧
    BlockPos.eq ((LocalBlockPos.ofBlockPos p).toGlobalPos (ChunkPos.ofBlockPos p)) p = true := by
  have hcx : (ChunkPos.ofBlockPos p).x = p.x / 16 := floordiv_eq_ediv p.x 16
  have hcz : (ChunkPos.ofBlockPos p).z = p.z / 16 := floordiv_eq_ediv p.z 16
  have hglobal : (LocalBlockPos.ofBlockPos p).toGlobalPos (ChunkPos.ofBlockPos p) = p := by
    rw [LocalBlockPos.ofBlockPos_eq]
    cases p with
    | mk x z y =>
      simp only [LocalBlockPos.toGlobalPos, hcx, hcz]
      unfold isInt32 at hx hz
      simp only at hx hz
      have ex : wrapInt32 (x % 16 + wrapInt32 (x / 16 * 16)) = x := by
        unfold wrapInt32
        omega
      have ez : wrapInt32 (z % 16 + wrapInt32 (z / 16 * 16)) = z := by
        unfold wrapInt32
        omega
      rw [ex, ez]
  rw [hglobal, LocalBlockPos.ofBlockPos_eq]
  refine ⟨⟨?_, ?_⟩, ⟨?_, ?_⟩, rfl, rfl, ?_⟩
  · show 0 ≤ p.x % 16
    omega
  · show p.x % 16 < 16
    omega
  · show 0 ≤ p.z % 16
    omega
  · show p.z % 16 < 16
    omega
  · simp [BlockPos.eq]

theorem LocalBlockPos.toGlobalPos_ofBlockPos_witness :
    (0 ≤ (LocalBlockPos.ofBlockPos ⟨-1, -2147483648, 70⟩).x ∧
      (LocalBlockPos.ofBlockPos ⟨-1, -2147483648, 70⟩).x < 16) ∧
    (0 ≤ (LocalBlockPos.ofBlockPos ⟨-1, -2147483648, 70⟩).z ∧
      (LocalBlockPos.ofBlockPos ⟨-1, -2147483648, 70⟩).z < 16) ∧
    (LocalBlockPos.ofBlockPos ⟨-1, -2147483648, 70⟩).y = 70 ∧
    (LocalBlockPos.ofBlockPos ⟨-1, -2147483648, 70⟩).toGlobalPos
      (ChunkPos.ofBlockPos ⟨-1, -2147483648, 70⟩) = ⟨-1, -2147483648, 70⟩ ∧
    BlockPos.eq ((LocalBlockPos.ofBlockPos ⟨-1, -2147483648, 70⟩).toGlobalPos
      (ChunkPos.ofBlockPos ⟨-1, -2147483648, 70⟩)) ⟨-1, -2147483648, 70⟩ = true :=
  LocalBlockPos.toGlobalPos_ofBlockPos ⟨-1, -2147483648, 70⟩ (by decide) (by decide)

/-- C15: for every `ChunkPos c`, negative coordinates included,
`getLocalX()` and `getLocalZ()` lie in `[0, 32)`, are the coordinates modulo
`32`, and `c.x == 32 * c.getRegion().x + c.getLocalX()`,
`c.z == 32 * c.getRegion().z + c.getLocalZ()`. -/
theorem ChunkPos.getLocal_spec (c : ChunkPos) :
    (0 ≤ c.getLocalX ∧ c.getLocalX < 32) ∧
    (0 ≤ c.getLocalZ ∧ c.getLocalZ < 32) ∧
    c.getLocalX = c.x % 32 ∧
    c.getLocalZ = c.z % 32 ∧
    c.x = 32 * c.getRegion.x + c.getLocalX ∧
    c.z = 32 * c.getRegion.z + c.getLocalZ := by
  have hx : c.getLocalX = c.x % 32 := tmod32_norm c.x
  have hz : c.getLocalZ = c.z % 32 := tmod32_norm c.z
  have hrx : c.getRegion.x = c.x / 32 := floordiv_eq_ediv c.x 32
  have hrz : c.getRegion.z = c.z / 32 := floordiv_eq_ediv c.z 32
  rw [hx, hz, hrx, hrz]
  refine ⟨⟨?_, ?_⟩, ⟨?_, ?_⟩, rfl, rfl, ?_, ?_⟩ <;> omega

/-- C16: for all `BlockPos` `a` and `b`, `a < b` holds exactly when the
triple `(a.y, -a.x, a.z)` is lexicographically smaller than
`(b.y, -b.x, b.z)`; `<` is irreflexive and transitive, and exactly one of
`a < b`, `a == b`, `b < a` holds. -/
theorem BlockPos.lt_lex (a b c : BlockPos) :
    (BlockPos.lt a b = true ↔
      toLex (a.y, toLex (-a.x, a.z)) < toLex (b.y, toLex (-b.x, b.z))) ∧
    (BlockPos.lt a b = true ↔
      a.y < b.y ∨ (a.y = b.y ∧ (-a.x < -b.x ∨ (-a.x = -b.x ∧ a.z < b.z)))) ∧
    BlockPos.lt a a = false ∧
    (BlockPos.lt a b = true → BlockPos.lt b c = true → BlockPos.lt a c = true) ∧
    (BlockPos.eq a b = true ↔ a = b) ∧
    ((BlockPos.lt a b = true ∧ BlockPos.eq a b = false ∧ BlockPos.lt b a = false) ∨
     (BlockPos.lt a b = false ∧ BlockPos.eq a b = true ∧ BlockPos.lt b a = false) ∨
     (BlockPos.lt a b = false ∧ BlockPos.eq a b = false ∧ BlockPos.lt b a = true)) := by
  have hlt : ∀ p q : BlockPos, BlockPos.lt p q = true ↔
      p.y < q.y ∨ (p.y = q.y ∧ (-p.x < -q.x ∨ (-p.x = -q.x ∧ p.z < q.z))) := by
    intro p q
    unfold BlockPos.lt
    split_ifs with h1 h2 <;> simp only [decide_eq_true_eq] <;> omega
  have hltf : ∀ p q : BlockPos, BlockPos.lt p q = false ↔
      ¬ (p.y < q.y ∨ (p.y = q.y ∧ (-p.x < -q.x ∨ (-p.x = -q.x ∧ p.z < q.z)))) := by
    intro p q
    rw [← hlt p q]
    simp
  have heq : ∀ p q : BlockPos, BlockPos.eq p q = true ↔ (p.x = q.x ∧ p.z = q.z ∧ p.y = q.y) := by
    intro p q
    simp [BlockPos.eq, and_assoc]
  have heqf : ∀ p q : BlockPos, BlockPos.eq p q = false ↔
      ¬ (p.x = q.x ∧ p.z = q.z ∧ p.y = q.y) := by
    intro p q
    rw [← heq p q]
    simp
  refine ⟨?_, hlt a b, ?_, ?_, ?_, ?_⟩
  · rw [hlt a b, Prod.Lex.lt_iff, Prod.Lex.lt_iff]
  · rw [hltf]
    omega
  · rw [hlt a b, hlt b c, hlt a c]
    omega
  · rw [heq]
    constructor
    · intro h
      cases a
      cases b
      simp only at h
      simp [h.1, h.2.1, h.2.2]
    · intro h
      subst h
      exact ⟨rfl, rfl, rfl⟩
  · rw [hlt a b, hlt b a, hltf a b, hltf b a, heq, heqf]
    omega

namespace WorldCache

variable {RegionFile Chunk : Type}

/-- C18: for a position with `y ≥ 0` and a non-null chunk hint `h`. If
`h.getPos() == ChunkPos(pos)`, `getBlock(pos, h, get)` reads the block from
`h` (position `pos`, `fields_set` the mask restricted to the four flags,
each requested field the value of the accessor of `h` at
`LocalBlockPos(pos)`, each other field its default) and the state (both
caches, all counters, the record of calls) is unchanged. If
`h.getPos() != ChunkPos(pos)`, result and resulting state are those of
`getBlock(pos, null, get)`. -/
theorem getBlock_hint (world : Collaborators RegionFile Chunk) (pos : BlockPos) (h : Chunk)
    (get : Int) (s : WorldCache RegionFile Chunk) (hy : 0 ≤ pos.y) :
    (world.Chunk_getPos h = ChunkPos.ofBlockPos pos →
      getBlock world pos (some h) get s = (readBlock world pos h get, s) ∧
      (getBlock world pos (some h) get s).1.pos = pos ∧
      (getBlock world pos (some h) get s).1.fields_set =
        andInt32 get
          (orInt32 (orInt32 (orInt32 GET_ID GET_BIOME) GET_BLOCK_LIGHT) GET_SKY_LIGHT) ∧
      (getBlock world pos (some h) get s).1.id =
        (if andInt32 get GET_ID ≠ 0
          then world.Chunk_getBlockID h (LocalBlockPos.ofBlockPos pos) else 0) ∧
      (getBlock world pos (some h) get s).1.biome =
        (if andInt32 get GET_BIOME ≠ 0
          then world.Chunk_getBiomeAt h (LocalBlockPos.ofBlockPos pos) else 0) ∧
      (getBlock world pos (some h) get s).1.block_light =
        (if andInt32 get GET_BLOCK_LIGHT ≠ 0
          then world.Chunk_getBlockLight h (LocalBlockPos.ofBlockPos pos) else 0) ∧
      (getBlock world pos (some h) get s).1.sky_light =
        (if andInt32 get GET_SKY_LIGHT ≠ 0
          then world.Chunk_getSkyLight h (LocalBlockPos.ofBlockPos pos) else 15) ∧
      (getBlock world pos (some h) get s).2 = s) ∧
    (world.Chunk_getPos h ≠ ChunkPos.ofBlockPos pos →
      getBlock world pos (some h) get s = getBlock world pos none get s) := by
  have hy' : ¬ pos.y < 0 := not_lt.mpr hy
  constructor
  · intro hpos
    have hb : (ChunkPos.ofBlockPos pos != world.Chunk_getPos h) = false := by
      rw [hpos]
      simp
    have hres : getBlock world pos (some h) get s = (readBlock world pos h get, s) := by
      simp only [getBlock, hy', if_false, hb, Bool.false_eq_true]
    rw [hres]
    exact ⟨rfl, (readBlock_fields world pos h get).1, readBlock_fields_set world pos h get,
      (readBlock_fields world pos h get).2.1, (readBlock_fields world pos h get).2.2.1,
      (readBlock_fields world pos h get).2.2.2.1, (readBlock_fields world pos h get).2.2.2.2,
      rfl⟩
  · intro hpos
    have hb : (ChunkPos.ofBlockPos pos != world.Chunk_getPos h) = true := by
      rw [bne_iff_ne]
      exact fun e => hpos e.symm
    simp only [getBlock, hy', if_false, hb, if_true]

theorem getBlock_hint_witness :
    getBlock exampleWorld ⟨3, 4, 5⟩ (some ⟨0, 0⟩) GET_ID init =
      (readBlock exampleWorld ⟨3, 4, 5⟩ ⟨0, 0⟩ GET_ID, init) ∧
    getBlock exampleWorld ⟨3, 4, 5⟩ (some ⟨7, 7⟩) GET_ID init =
      getBlock exampleWorld ⟨3, 4, 5⟩ none GET_ID init :=
  ⟨((getBlock_hint exampleWorld ⟨3, 4, 5⟩ ⟨0, 0⟩ GET_ID init (by decide)).1 (by decide)).1,
   (getBlock_hint exampleWorld ⟨3, 4, 5⟩ ⟨7, 7⟩ GET_ID init (by decide)).2 (by decide)⟩

end WorldCache

theorem kMask_eq (kBits : Nat) : kMask kBits = 2 ^ kBits - 1 := by
  unfold kMask kWidth
  rw [Nat.one_shiftLeft]

theorem kNumBuckets_eq (kBits : Nat) : kNumBuckets kBits = 4 ^ kBits := by
  unfold kNumBuckets kWidth
  rw [Nat.one_shiftLeft, ← mul_pow]
  rfl

/-- The packed index is the sum of its two parts. -/
theorem IndexForKey_eq_add {K : Type} [PosKey K] (kBits : Nat) (key : K) :
    IndexForKey kBits key =
      2 ^ kBits * (toUInt32 (PosKey.x key) &&& kMask kBits) +
        (toUInt32 (PosKey.z key) &&& kMask kBits) := by
  unfold IndexForKey
  rw [Nat.shiftLeft_eq, Nat.mul_comm, Nat.mul_add_lt_is_or (and_kMask_lt kBits _)]

/-- The low `kBits` bits of a coordinate converted to `uint32_t` are its
non-negative residue modulo `2^kBits`, for `kBits ≤ 32`. -/
theorem toUInt32_and_kMask (kBits : Nat) (hB : kBits ≤ 32) (v : Int) :
    ((toUInt32 v &&& kMask kBits : Nat) : Int) = v % 2 ^ kBits := by
  rw [kMask_eq, Nat.and_pow_two_sub_one_eq_mod]
  unfold toUInt32
  push_cast
  rw [Int.toNat_of_nonneg (Int.emod_nonneg v (by decide))]
  have hdvd : (2 : Int) ^ kBits ∣ 4294967296 := by
    have h32 : (4294967296 : Int) = 2 ^ 32 := by norm_num
    rw [h32]
    exact pow_dvd_pow 2 hB
  exact Int.emod_emod_of_dvd v hdvd

/-- C19: for every key `(x, z)`, whatever the sign of its coordinates, and
every bit-width `kBits ≤ 32` (`2` for regions, `5` for chunks),
`IndexForKey` is `((x & mask) << kBits) | (z & mask)` with
`mask = 2^kBits - 1`, which is `(x mod 2^kBits) * 2^kBits + (z mod 2^kBits)`
with residues in `[0, 2^kBits)`; it lies in `[0, 4^kBits)`, the number of
buckets, so the slot that `Get` and `Put` access is inside the array. -/
theorem IndexForKey_spec {K : Type} [PosKey K] (kBits : Nat) (key : K) (hB : kBits ≤ 32) :
    kMask kBits = 2 ^ kBits - 1 ∧
    IndexForKey kBits key =
      (((toUInt32 (PosKey.x key) &&& (2 ^ kBits - 1)) <<< kBits) |||
        (toUInt32 (PosKey.z key) &&& (2 ^ kBits - 1))) ∧
    (0 ≤ PosKey.x key % 2 ^ kBits ∧ PosKey.x key % 2 ^ kBits < 2 ^ kBits) ∧
    (0 ≤ PosKey.z key % 2 ^ kBits ∧ PosKey.z key % 2 ^ kBits < 2 ^ kBits) ∧
    (IndexForKey kBits key : Int) =
      (PosKey.x key % 2 ^ kBits) * 2 ^ kBits + PosKey.z key % 2 ^ kBits ∧
    IndexForKey kBits key < 4 ^ kBits ∧
    kNumBuckets kBits = 4 ^ kBits ∧
    (PositionCache.slot kBits key).val = IndexForKey kBits key ∧
    (PositionCache.slot kBits key).val < kNumBuckets kBits := by
  have hpos : (0 : Int) < 2 ^ kBits := by positivity
  refine ⟨kMask_eq kBits, ?_, ⟨Int.emod_nonneg _ (ne_of_gt hpos), Int.emod_lt_of_pos _ hpos⟩,
    ⟨Int.emod_nonneg _ (ne_of_gt hpos), Int.emod_lt_of_pos _ hpos⟩, ?_, ?_,
    kNumBuckets_eq kBits, rfl, (PositionCache.slot kBits key).isLt⟩
  · unfold IndexForKey
    rw [kMask_eq]
  · rw [IndexForKey_eq_add]
    push_cast
    rw [toUInt32_and_kMask kBits hB, toUInt32_and_kMask kBits hB]
    ring
  · rw [← kNumBuckets_eq]
    exact IndexForKey_lt kBits key

theorem IndexForKey_spec_witness :
    (IndexForKey 5 (ChunkPos.mk (-1) (-33)) : Int) = ((-1 : Int) % 2 ^ 5) * 2 ^ 5 + (-33) % 2 ^ 5 ∧
    IndexForKey 5 (ChunkPos.mk (-1) (-33)) < 4 ^ 5 ∧
    IndexForKey 2 (RegionPos.mk (-2147483648) 2147483647) < 4 ^ 2 :=
  ⟨(@IndexForKey_spec ChunkPos _ 5 ⟨-1, -33⟩ (by decide)).2.2.2.2.1,
   (@IndexForKey_spec ChunkPos _ 5 ⟨-1, -33⟩ (by decide)).2.2.2.2.2.1,
   (@IndexForKey_spec RegionPos _ 2 ⟨-2147483648, 2147483647⟩ (by decide)).2.2.2.2.2.1⟩

namespace PositionCache

variable {K V : Type} {kBits : Nat}

/-- Keys whose low bits differ in `x` or in `z` address different slots. -/
theorem slot_ne_of_lowBits_ne [PosKey K] (k k' : K)
    (hdiff : toUInt32 (PosKey.x k) &&& kMask kBits ≠ toUInt32 (PosKey.x k') &&& kMask kBits ∨
      toUInt32 (PosKey.z k) &&& kMask kBits ≠ toUInt32 (PosKey.z k') &&& kMask kBits) :
    slot kBits k' ≠ slot kBits k := by
  intro h
  have hidx : IndexForKey kBits k' = IndexForKey kBits k := congrArg Fin.val h
  rw [IndexForKey_eq_add, IndexForKey_eq_add] at hidx
  have hx := and_kMask_lt kBits (toUInt32 (PosKey.x k))
  have hz := and_kMask_lt kBits (toUInt32 (PosKey.z k))
  have hx' := and_kMask_lt kBits (toUInt32 (PosKey.x k'))
  have hz' := and_kMask_lt kBits (toUInt32 (PosKey.z k'))
  have hp : 0 < 2 ^ kBits := Nat.two_pow_pos kBits
  have hdiv := congrArg (fun n => n / 2 ^ kBits) hidx
  have hmod := congrArg (fun n => n % 2 ^ kBits) hidx
  simp only [Nat.mul_add_div hp, Nat.div_eq_of_lt hz, Nat.div_eq_of_lt hz', Nat.add_zero,
    Nat.mul_add_mod, Nat.mod_eq_of_lt hz, Nat.mod_eq_of_lt hz'] at hdiv hmod
  rcases hdiff with hd | hd
  · exact hd hdiv.symm
  · exact hd hmod.symm

/-- C20: for every cache state, value `v` and keys `k`, `k'` whose `x` or
whose `z` differ in the low `kBits` bits (so that they map to different
slots), `Put(k, v)` does not change the outcome of `Get(k')`: a hit stays a
hit with the same value and a miss stays a miss. -/
theorem Get_Put_other_slot [PosKey K] [BEq K] (c : PositionCache K V kBits) (k k' : K)
    (v : Option V)
    (hdiff : toUInt32 (PosKey.x k) &&& kMask kBits ≠ toUInt32 (PosKey.x k') &&& kMask kBits ∨
      toUInt32 (PosKey.z k) &&& kMask kBits ≠ toUInt32 (PosKey.z k') &&& kMask kBits) :
    slot kBits k' ≠ slot kBits k ∧
    (c.Put k v).Get k' = c.Get k' ∧
    (∀ v', c.Get k' = some v' → (c.Put k v).Get k' = some v') ∧
    (c.Get k' = none → (c.Put k v).Get k' = none) := by
  have hs := slot_ne_of_lowBits_ne k k' hdiff
  have hget : (c.Put k v).Get k' = c.Get k' := by
    unfold Get
    rw [data_Put_of_ne c k v (slot kBits k') hs]
  exact ⟨hs, hget, fun v' h => hget.trans h, fun h => hget.trans h⟩

theorem Get_Put_other_slot_witness :
    (((fresh : PositionCache ChunkPos Nat 5).Put ⟨1, 2⟩ (some 10)).Put ⟨1, -31⟩ none).Get ⟨1, 2⟩
      = ((fresh : PositionCache ChunkPos Nat 5).Put ⟨1, 2⟩ (some 10)).Get ⟨1, 2⟩ ∧
    ((fresh : PositionCache ChunkPos Nat 5).Put ⟨1, 2⟩ (some 10)).Get ⟨1, 2⟩ = some (some 10) :=
  ⟨(Get_Put_other_slot ((fresh : PositionCache ChunkPos Nat 5).Put ⟨1, 2⟩ (some 10)) ⟨1, -31⟩
      ⟨1, 2⟩ none (Or.inr (by decide))).2.1,
   by decide⟩

end PositionCache

theorem takeWhile_append_stop (p : Char → Bool) (ds r : List Char)
    (hds : ∀ c ∈ ds, p c = true) (hr : ∀ c ∈ r.head?, p c = false) :
    (ds ++ r).takeWhile p = ds ∧ (ds ++ r).dropWhile p = r := by
  induction ds with
  | nil =>
    cases r with
    | nil => exact ⟨rfl, rfl⟩
    | cons c cs =>
      have hc : p c = false := hr c rfl
      simp [List.takeWhile, List.dropWhile, hc]
  | cons d ds ih =>
    have hd : p d = true := hds d (List.mem_cons_self _ _)
    have ih' := ih (fun c hc => hds c (List.mem_cons_of_mem _ hc))
    simp [List.takeWhile, List.dropWhile, hd, ih'.1, ih'.2]

theorem head_dropWhile (p : Char → Bool) (l : List Char) :
    ∀ c ∈ (l.dropWhile p).head?, p c = false := by
  induction l with
  | nil => simp
  | cons d ds ih =>
    by_cases hd : p d = true
    · simpa [List.dropWhile, hd] using ih
    · simp only [Bool.not_eq_true] at hd
      simp [List.dropWhile, hd]

theorem isspace_of_sign_or_digit (c : Char) (h : c = '-' ∨ c = '+' ∨ isdigit c = true) :
    isspace c = false := by
  rcases h with h | h | h
  · subst h; decide
  · subst h; decide
  · unfold isdigit at h
    simp only [Bool.and_eq_true, decide_eq_true_eq] at h
    unfold isspace
    have h1 : (48 : Nat) ≤ c.toNat := h.1
    simp only [Bool.or_eq_false_iff, decide_eq_false_iff_not]
    refine ⟨⟨⟨⟨⟨?_, ?_⟩, ?_⟩, ?_⟩, ?_⟩, ?_⟩ <;> (intro e; subst e; revert h1; decide)

theorem isdigit_not_sign (c : Char) (h : isdigit c = true) : c ≠ '-' ∧ c ≠ '+' := by
  unfold isdigit at h
  simp only [Bool.and_eq_true, decide_eq_true_eq] at h
  have h1 : (48 : Nat) ≤ c.toNat := h.1
  constructor <;> (intro e; subst e; revert h1; decide)

theorem scanSign_spec (s : List Char) :
    ∃ sg : List Char, (sg = [] ∨ sg = ['+'] ∨ sg = ['-']) ∧ s = sg ++ (scanSign s).2 ∧
      ((scanSign s).1 = true ↔ sg = ['-']) ∧
      (sg = [] → ∀ c ∈ s.head?, c ≠ '-' ∧ c ≠ '+') := by
  cases s with
  | nil => exact ⟨[], Or.inl rfl, rfl, by simp [scanSign], by simp⟩
  | cons c cs =>
    by_cases h1 : c = '-'
    · subst h1
      exact ⟨['-'], Or.inr (Or.inr rfl), rfl, by simp [scanSign], by simp⟩
    · by_cases h2 : c = '+'
      · subst h2
        refine ⟨['+'], Or.inr (Or.inl rfl), rfl, ?_, by simp⟩
        simp [scanSign]
      · refine ⟨[], Or.inl rfl, ?_, ?_, ?_⟩
        · simp [scanSign, h1, h2]
        · simp [scanSign, h1, h2]
        · intro _ d hd
          simp only [List.head?_cons, Option.mem_def, Option.some.injEq] at hd
          subst hd
          exact ⟨h1, h2⟩

theorem scanSign_append (sg ds r : List Char) (hsg : sg = [] ∨ sg = ['+'] ∨ sg = ['-'])
    (hne : ds ≠ []) (hds : ∀ c ∈ ds, isdigit c = true) :
    scanSign (sg ++ (ds ++ r)) = (decide (sg = ['-']), ds ++ r) := by
  rcases hsg with h | h | h
  · subst h
    cases ds with
    | nil => exact absurd rfl hne
    | cons d ds' =>
      have hd := isdigit_not_sign d (hds d (List.mem_cons_self _ _))
      simp [scanSign, hd.1, hd.2]
  · subst h
    simp [scanSign]
  · subst h
    simp [scanSign]

theorem dropWhile_isspace_append (ws t : List Char) (hws : ∀ c ∈ ws, isspace c = true)
    (ht : ∀ c ∈ t.head?, isspace c = false) : (ws ++ t).dropWhile isspace = t :=
  (takeWhile_append_stop isspace ws t hws ht).2

theorem scanInt_iff (outOfRange : Int → Int) (t : List Char) (v : Int) (r : List Char) :
    scanInt outOfRange t = some (v, r) ↔ IsIntItem outOfRange t v r := by
  constructor
  · intro h
    unfold scanInt at h
    obtain ⟨sg, hsg, hsplit, hneg, _⟩ := scanSign_spec (t.dropWhile isspace)
    by_cases hds : (scanSign (t.dropWhile isspace)).2.takeWhile isdigit = []
    · simp [hds] at h
    · simp only [hds, if_false, Option.some.injEq, Prod.mk.injEq] at h
      refine ⟨t.takeWhile isspace, sg, (scanSign (t.dropWhile isspace)).2.takeWhile isdigit,
        ?_, ?_, hsg, hds, ?_, ?_, ?_⟩
      · rw [← h.2, List.takeWhile_append_dropWhile, ← hsplit, List.takeWhile_append_dropWhile]
      · intro c hc
        exact (List.mem_takeWhile_imp hc)
      · intro c hc
        exact (List.mem_takeWhile_imp hc)
      · rw [← h.2]
        exact head_dropWhile isdigit _
      · rw [← h.1]
        by_cases hn : (scanSign (t.dropWhile isspace)).1 = true
        · rw [if_pos hn, if_pos (hneg.mp hn)]
        · rw [if_neg hn, if_neg (fun e => hn (hneg.mpr e))]
  · rintro ⟨ws, sg, ds, ht, hws, hsg, hne, hds, hr, hv⟩
    have hhead : ∀ c ∈ (sg ++ (ds ++ r)).head?, isspace c = false := by
      intro c hc
      apply isspace_of_sign_or_digit
      rcases hsg with e | e | e
      · subst e
        cases ds with
        | nil => exact absurd rfl hne
        | cons d ds' =>
          simp only [List.nil_append, List.cons_append, List.head?_cons, Option.mem_def,
            Option.some.injEq] at hc
          subst hc
          exact Or.inr (Or.inr (hds _ (List.mem_cons_self _ _)))
      · subst e
        simp only [List.cons_append, List.head?_cons, Option.mem_def,
          Option.some.injEq] at hc
        exact Or.inr (Or.inl hc.symm)
      · subst e
        simp only [List.cons_append, List.head?_cons, Option.mem_def,
          Option.some.injEq] at hc
        exact Or.inl hc.symm
    have hdrop := dropWhile_isspace_append ws _ hws hhead
    have hsign := scanSign_append sg ds r hsg hne hds
    have htd := takeWhile_append_stop isdigit ds r hds hr
    unfold scanInt
    rw [ht, hdrop, hsign]
    simp only [htd.1, htd.2, hne, if_false, decide_eq_true_eq]
    rw [hv]

theorem scanChar_eq_some (c : Char) (s r : List Char) :
    scanChar c s = some r ↔ s = c :: r := by
  cases s with
  | nil => simp [scanChar]
  | cons d ds =>
    by_cases h : d = c
    · simp [scanChar, h]
    · simp [scanChar, h]

theorem digitChar_spec (d : Nat) (hd : d < 10) :
    isdigit (Char.ofNat (48 + d)) = true ∧ (Char.ofNat (48 + d)).toNat - 48 = d := by
  interval_cases d <;> exact ⟨by decide, by decide⟩

theorem digitsValue_append_singleton (ds : List Char) (c : Char) :
    digitsValue (ds ++ [c]) = digitsValue ds * 10 + (c.toNat - 48) := by
  simp [digitsValue, List.foldl_append]

theorem digitsValue_reverse_map (l : List Nat) (hl : ∀ d ∈ l, d < 10) :
    digitsValue (l.reverse.map (fun d => Char.ofNat (48 + d))) = Nat.ofDigits 10 l := by
  induction l with
  | nil => rfl
  | cons d l ih =>
    have ih' := ih (fun e he => hl e (List.mem_cons_of_mem _ he))
    have hd := (digitChar_spec d (hl d (List.mem_cons_self _ _))).2
    rw [List.reverse_cons, List.map_append, List.map_singleton, digitsValue_append_singleton,
      ih', hd, Nat.ofDigits_cons]
    ring

theorem natDecimal_spec (n : Nat) :
    natDecimal n ≠ [] ∧ (∀ c ∈ natDecimal n, isdigit c = true) ∧
    digitsValue (natDecimal n) = n := by
  unfold natDecimal
  by_cases hn : n = 0
  · subst hn
    simp only [if_true]
    exact ⟨by simp, by decide, by decide⟩
  · simp only [hn, if_false]
    have hlt : ∀ d ∈ Nat.digits 10 n, d < 10 := fun d hd => Nat.digits_lt_base (by decide) hd
    refine ⟨?_, ?_, ?_⟩
    · intro h
      rw [List.map_eq_nil_iff, List.reverse_eq_nil_iff] at h
      exact (Nat.digits_ne_nil_iff_ne_zero.mpr hn) h
    · intro c hc
      rw [List.mem_map] at hc
      obtain ⟨d, hd, rfl⟩ := hc
      exact (digitChar_spec d (hlt d (List.mem_reverse.mp hd))).1
    · rw [digitsValue_reverse_map _ hlt, Nat.ofDigits_digits]

theorem isIntItem_decimal (outOfRange : Int → Int) (v : Int) (hv : isInt32 v) (r : List Char)
    (hr : ∀ c ∈ r.head?, isdigit c = false) : IsIntItem outOfRange (decimal v ++ r) v r := by
  obtain ⟨hne, hds, hval⟩ := natDecimal_spec v.natAbs
  have hwrap : ∀ w : Int, isInt32 w → storeInt outOfRange w = w := by
    intro w hw
    unfold storeInt
    rw [if_pos hw]
  unfold decimal
  by_cases hneg : v < 0
  · refine ⟨[], ['-'], natDecimal v.natAbs, ?_, by simp, Or.inr (Or.inr rfl), hne, hds, hr, ?_⟩
    · simp [hneg]
    · rw [if_pos rfl, hval]
      have : -(v.natAbs : Int) = v := by omega
      rw [this, hwrap v hv]
  · refine ⟨[], [], natDecimal v.natAbs, ?_, by simp, Or.inl rfl, hne, hds, hr, ?_⟩
    · simp [hneg]
    · rw [if_neg (by simp), hval]
      have : (v.natAbs : Int) = v := by omega
      rw [this, hwrap v hv]

theorem isdigit_ne_nul (c : Char) (h : isdigit c = true) : c ≠ Char.ofNat 0 := by
  unfold isdigit at h
  simp only [Bool.and_eq_true, decide_eq_true_eq] at h
  have h1 : (48 : Nat) ≤ c.toNat := h.1
  intro e
  subst e
  revert h1
  decide

theorem c_str_append (a rest : List Char) (ha : ∀ c ∈ a, c ≠ Char.ofNat 0) :
    c_str (a ++ rest) = a ++ c_str rest := by
  induction a with
  | nil => rfl
  | cons d ds ih =>
    have hd : d ≠ Char.ofNat 0 := ha d (List.mem_cons_self _ _)
    have ih' := ih (fun c hc => ha c (List.mem_cons_of_mem _ hc))
    unfold c_str at ih' ⊢
    simpa [List.takeWhile, hd] using ih'

theorem head_c_str (rest : List Char) : ∀ c ∈ (c_str rest).head?, c ∈ rest.head? := by
  cases rest with
  | nil => simp [c_str]
  | cons d ds =>
    by_cases hd : d = Char.ofNat 0
    · simp [c_str, List.takeWhile, hd]
    · simp [c_str, List.takeWhile, hd]

theorem decimal_ne_nul (v : Int) : ∀ c ∈ decimal v, c ≠ Char.ofNat 0 := by
  have hds := (natDecimal_spec v.natAbs).2.1
  intro c hc
  unfold decimal at hc
  split_ifs at hc
  · rcases List.mem_cons.mp hc with h | h
    · subst h
      decide
    · exact isdigit_ne_nul c (hds c h)
  · exact isdigit_ne_nul c (hds c hc)

theorem sscanf_iff (outOfRange : Int → Int) (name : List Char) (x z : Int) :
    sscanf_r_d_d_mca outOfRange name = some (x, z) ↔
      IsRegionName outOfRange (c_str name) x z := by
  constructor
  · intro h
    unfold sscanf_r_d_d_mca at h
    cases h1 : scanChar 'r' (c_str name) with
    | none => simp [h1] at h
    | some s1 =>
      cases h2 : scanChar '.' s1 with
      | none => simp [h1, h2] at h
      | some s2 =>
        cases h3 : scanInt outOfRange s2 with
        | none => simp [h1, h2, h3] at h
        | some p3 =>
          obtain ⟨x', s3⟩ := p3
          cases h4 : scanChar '.' s3 with
          | none => simp [h1, h2, h3, h4] at h
          | some s4 =>
            cases h5 : scanInt outOfRange s4 with
            | none => simp [h1, h2, h3, h4, h5] at h
            | some p5 =>
              obtain ⟨z', s5⟩ := p5
              simp only [h1, h2, h3, h4, h5, Option.some.injEq, Prod.mk.injEq] at h
              rw [scanChar_eq_some] at h1 h2 h4
              rw [h.1, h4] at h3
              rw [h.2] at h5
              exact ⟨s2, s4, s5, by rw [h1, h2], (scanInt_iff _ _ _ _).mp h3,
                (scanInt_iff _ _ _ _).mp h5⟩
  · rintro ⟨t1, t2, rest, hname, h1, h2⟩
    have e1 := (scanInt_iff _ _ _ _).mpr h1
    have e2 := (scanInt_iff _ _ _ _).mpr h2
    unfold sscanf_r_d_d_mca
    rw [hname]
    simp [scanChar, e1, e2]

theorem byFilename_of_none (outOfRange : Int → Int) (fn : List Char → List Char)
    (filename : List Char) (h : sscanf_r_d_d_mca outOfRange (fn filename) = none) :
    RegionPos.byFilename outOfRange fn filename =
      Except.error ("Invalid filename " ++ String.mk (fn filename) ++ "!") := by
  simp only [RegionPos.byFilename, h]

theorem byFilename_of_some (outOfRange : Int → Int) (fn : List Char → List Char)
    (filename : List Char) (x z : Int)
    (h : sscanf_r_d_d_mca outOfRange (fn filename) = some (x, z)) :
    RegionPos.byFilename outOfRange fn filename = Except.ok ⟨x, z⟩ := by
  simp only [RegionPos.byFilename, h]

theorem byFilename_ok_iff (outOfRange : Int → Int) (fn : List Char → List Char)
    (filename : List Char) (x z : Int) :
    RegionPos.byFilename outOfRange fn filename = Except.ok ⟨x, z⟩ ↔
      IsRegionName outOfRange (c_str (fn filename)) x z := by
  rw [← sscanf_iff]
  cases h : sscanf_r_d_d_mca outOfRange (fn filename) with
  | none =>
    rw [byFilename_of_none outOfRange fn filename h]
    simp
  | some p =>
    obtain ⟨x', z'⟩ := p
    rw [byFilename_of_some outOfRange fn filename x' z' h]
    simp [Prod.ext_iff]

theorem byFilename_error_iff (outOfRange : Int → Int) (fn : List Char → List Char)
    (filename : List Char) :
    RegionPos.byFilename outOfRange fn filename =
        Except.error ("Invalid filename " ++ String.mk (fn filename) ++ "!") ↔
      ¬ ∃ x z, IsRegionName outOfRange (c_str (fn filename)) x z := by
  constructor
  · rintro h ⟨x, z, hxz⟩
    rw [(byFilename_ok_iff outOfRange fn filename x z).mpr hxz] at h
    cases h
  · intro h
    cases hs : sscanf_r_d_d_mca outOfRange (fn filename) with
    | none => exact byFilename_of_none outOfRange fn filename hs
    | some p =>
      obtain ⟨x', z'⟩ := p
      exact absurd ⟨x', z', (sscanf_iff _ _ _ _).mp hs⟩ h

theorem byFilename_decimal (outOfRange : Int → Int) (fn : List Char → List Char)
    (filename : List Char) (x z : Int)
    (hx : isInt32 x) (hz : isInt32 z) (rest : List Char)
    (hrest : ∀ c ∈ rest.head?, isdigit c = false)
    (hname : fn filename = 'r' :: '.' :: (decimal x ++ '.' :: (decimal z ++ rest))) :
    RegionPos.byFilename outOfRange fn filename = Except.ok ⟨x, z⟩ := by
  rw [byFilename_ok_iff, hname]
  have hsplit : 'r' :: '.' :: (decimal x ++ '.' :: (decimal z ++ rest)) =
      ('r' :: '.' :: (decimal x ++ '.' :: decimal z)) ++ rest := by simp
  have hnul : ∀ c ∈ 'r' :: '.' :: (decimal x ++ '.' :: decimal z), c ≠ Char.ofNat 0 := by
    intro c hc
    simp only [List.mem_cons, List.mem_append] at hc
    rcases hc with h | h | h | h | h
    · subst h
      decide
    · subst h
      decide
    · exact decimal_ne_nul x c h
    · subst h
      decide
    · exact decimal_ne_nul z c h
  rw [hsplit, c_str_append _ _ hnul]
  refine ⟨decimal x ++ '.' :: (decimal z ++ c_str rest), decimal z ++ c_str rest, c_str rest,
    by simp, ?_, ?_⟩
  · exact isIntItem_decimal outOfRange x hx _ (by simp [isdigit])
  · exact isIntItem_decimal outOfRange z hz _ (fun c hc => hrest c (head_c_str rest c hc))

theorem not_isRegionFilename_of_count (name : List Char) (h : name.count '.' < 3) :
    ¬ IsRegionFilename name := by
  rintro ⟨sg1, ds1, sg2, ds2, ext, hname, -⟩
  rw [hname] at h
  simp only [List.count_cons, List.count_append] at h
  simp at h
  omega

/-- C17: `byFilename` returns `RegionPos(x, z)` for every base name
`r.<x>.<z>.<ext>` with `int`s `x` and `z`, as the pattern asks. It does not
fail on every other name: the format `r.%d.%d.mca` is compared with `!= 2`,
and `sscanf` returns `2` once both integers are assigned, before `.mca` is
looked at. So the names `r.1.2` (no extension), `r.1.2mca` (no `.` before
the extension) and `r. 7.-2x` (white space before an integer, no
extension), which have no directory part and are their own base names, are
not of the pattern `r.<x>.<z>.<ext>`, yet `byFilename` returns
`RegionPos(1, 2)`, `RegionPos(1, 2)` and `RegionPos(7, -2)` for them
instead of failing; a name that does not begin with `r.` and an integer,
such as `x.1.2.mca`, does fail with `Invalid filename x.1.2.mca!`. -/
theorem byFilename_suffix_unchecked (outOfRange : Int → Int) :
    (∀ (BOOST_FS_FILENAME : List Char → List Char) (filename : List Char) (x z : Int)
        (ext : List Char), isInt32 x → isInt32 z →
      BOOST_FS_FILENAME filename =
        'r' :: '.' :: (decimal x ++ '.' :: (decimal z ++ '.' :: ext)) →
      RegionPos.byFilename outOfRange BOOST_FS_FILENAME filename = Except.ok ⟨x, z⟩) ∧
    ¬ IsRegionFilename ['r', '.', '1', '.', '2'] ∧
    RegionPos.byFilename outOfRange (fun name => name) ['r', '.', '1', '.', '2']
      = Except.ok ⟨1, 2⟩ ∧
    ¬ IsRegionFilename ['r', '.', '1', '.', '2', 'm', 'c', 'a'] ∧
    RegionPos.byFilename outOfRange (fun name => name) ['r', '.', '1', '.', '2', 'm', 'c', 'a']
      = Except.ok ⟨1, 2⟩ ∧
    ¬ IsRegionFilename ['r', '.', ' ', '7', '.', '-', '2', 'x'] ∧
    RegionPos.byFilename outOfRange (fun name => name) ['r', '.', ' ', '7', '.', '-', '2', 'x']
      = Except.ok ⟨7, -2⟩ ∧
    RegionPos.byFilename outOfRange (fun name => name)
        ['x', '.', '1', '.', '2', '.', 'm', 'c', 'a'] =
      Except.error ("Invalid filename " ++
        String.mk ['x', '.', '1', '.', '2', '.', 'm', 'c', 'a'] ++ "!") :=
  ⟨fun fn filename x z ext hx hz hname =>
      byFilename_decimal outOfRange fn filename x z hx hz ('.' :: ext) (by simp [isdigit]) hname,
   not_isRegionFilename_of_count _ (by decide), rfl,
   not_isRegionFilename_of_count _ (by decide), rfl,
   not_isRegionFilename_of_count _ (by decide), rfl, rfl⟩

theorem byFilename_suffix_unchecked_witness :
    isInt32 (-3) ∧ isInt32 12 ∧
    RegionPos.byFilename (fun _ => 0) (fun name => name)
        ['r', '.', '-', '3', '.', '1', '2', '.', 'm', 'c', 'a'] = Except.ok ⟨-3, 12⟩ :=
  ⟨by decide, by decide,
   (byFilename_suffix_unchecked (fun _ => 0)).1 (fun name => name)
      ['r', '.', '-', '3', '.', '1', '2', '.', 'm', 'c', 'a'] (-3) 12 ['m', 'c', 'a']
      (by decide) (by decide) (by simp [decimal, natDecimal])⟩

namespace PositionCache

variable {K V : Type} {kBits : Nat}

theorem Get_Put_of_slot_ne [PosKey K] [BEq K] (c : PositionCache K V kBits) (k k' : K)
    (v : Option V) (h : slot kBits k' ≠ slot kBits k) : (c.Put k v).Get k' = c.Get k' := by
  unfold Get
  rw [data_Put_of_ne c k v (slot kBits k') h]

theorem PutAll_append_singleton [PosKey K] (c : PositionCache K V kBits)
    (puts : List (K × Option V)) (p : K × Option V) :
    c.PutAll (puts ++ [p]) = (c.PutAll puts).Put p.1 p.2 := by
  simp [PutAll, List.foldl_append]

end PositionCache

/-- The slot of a chunk in the chunk cache is `getLocalX() * 32 + getLocalZ()`. -/
theorem IndexForKey_chunk (c : ChunkPos) :
    (IndexForKey 5 c : Int) = c.getLocalX * 32 + c.getLocalZ := by
  have hx : c.getLocalX = c.x % 32 := tmod32_norm c.x
  have hz : c.getLocalZ = c.z % 32 := tmod32_norm c.z
  have h1 := toUInt32_and_kMask 5 (by decide) c.x
  have h2 := toUInt32_and_kMask 5 (by decide) c.z
  have e32 : ((2 : Int) ^ 5) = 32 := by norm_num
  rw [e32] at h1 h2
  rw [IndexForKey_eq_add, hx, hz]
  push_cast
  have hpx : PosKey.x c = c.x := rfl
  have hpz : PosKey.z c = c.z := rfl
  rw [hpx, hpz, h1, h2]
  ring

/-- Two different chunks of one region have different slots in the chunk
cache. -/
theorem slot_ne_of_same_region (a b : ChunkPos) (hne : a ≠ b)
    (hreg : a.getRegion = b.getRegion) :
    PositionCache.slot 5 a ≠ PositionCache.slot 5 b := by
  apply PositionCache.slot_ne_of_lowBits_ne
  have hrx : a.x / 32 = b.x / 32 := by
    have h := congrArg RegionPos.x hreg
    simp only [ChunkPos.getRegion] at h
    have ea : floordiv a.x 32 = a.x / 32 := floordiv_eq_ediv a.x 32
    have eb : floordiv b.x 32 = b.x / 32 := floordiv_eq_ediv b.x 32
    rw [ea, eb] at h
    exact h
  have hrz : a.z / 32 = b.z / 32 := by
    have h := congrArg RegionPos.z hreg
    simp only [ChunkPos.getRegion] at h
    have ea : floordiv a.z 32 = a.z / 32 := floordiv_eq_ediv a.z 32
    have eb : floordiv b.z 32 = b.z / 32 := floordiv_eq_ediv b.z 32
    rw [ea, eb] at h
    exact h
  have hcoord : a.x ≠ b.x ∨ a.z ≠ b.z := by
    by_contra hcon
    push_neg at hcon
    apply hne
    cases a
    cases b
    simp only at hcon
    simp [hcon.1, hcon.2]
  have e32 : ((2 : Int) ^ 5) = 32 := by norm_num
  have hax := toUInt32_and_kMask 5 (by decide) a.x
  have hbx := toUInt32_and_kMask 5 (by decide) b.x
  have haz := toUInt32_and_kMask 5 (by decide) a.z
  have hbz := toUInt32_and_kMask 5 (by decide) b.z
  rw [e32] at hax hbx haz hbz
  rcases hcoord with h | h
  · left
    intro e
    have e' : ((toUInt32 (PosKey.x b) &&& kMask 5 : Nat) : Int)
        = ((toUInt32 (PosKey.x a) &&& kMask 5 : Nat) : Int) := congrArg Nat.cast e
    have hpa : PosKey.x a = a.x := rfl
    have hpb : PosKey.x b = b.x := rfl
    rw [hpa, hpb, hax, hbx] at e'
    omega
  · right
    intro e
    have e' : ((toUInt32 (PosKey.z b) &&& kMask 5 : Nat) : Int)
        = ((toUInt32 (PosKey.z a) &&& kMask 5 : Nat) : Int) := congrArg Nat.cast e
    have hpa : PosKey.z a = a.z := rfl
    have hpb : PosKey.z b = b.z := rfl
    rw [hpa, hpb, haz, hbz] at e'
    omega

/-- Chunks of one region, inserted one after the other under different
keys, are all still cached after the last insertion. -/
theorem PutAll_same_region {V : Type} (r : RegionPos) (puts : List (ChunkPos × Option V))
    (c : PositionCache ChunkPos V 5)
    (hreg : ∀ p ∈ puts, p.1.getRegion = r) (hnodup : (puts.map Prod.fst).Nodup) :
    ∀ p ∈ puts, (c.PutAll puts).Get p.1 = some p.2 := by
  induction puts using List.reverseRecOn with
  | nil => intro p hp; cases hp
  | append_singleton l q ih =>
    rw [List.map_append, List.nodup_append] at hnodup
    obtain ⟨hl, _, hdisj⟩ := hnodup
    have ih' := ih (fun p hp => hreg p (List.mem_append_left _ hp)) hl
    intro p hp
    rw [PositionCache.PutAll_append_singleton]
    rcases List.mem_append.mp hp with h | h
    · have hne : p.1 ≠ q.1 := by
        intro e
        exact hdisj (List.mem_map_of_mem Prod.fst h) (by simp [e])
      have hsame : p.1.getRegion = q.1.getRegion := by
        rw [hreg p hp, hreg q (List.mem_append_right _ (List.mem_singleton_self q))]
      rw [PositionCache.Get_Put_of_slot_ne _ _ _ _ (slot_ne_of_same_region p.1 q.1 hne hsame)]
      exact ih' p h
    · rw [List.mem_singleton] at h
      subst h
      exact PositionCache.Get_Put_eq _ _ _

/-- C21: in the chunk cache (`kBits = 5`) the slot index of a chunk is
`getLocalX() * 32 + getLocalZ()`; two different chunk positions of the same
region have different slots, so inserting one does not evict the other;
and chunks of one region inserted under pairwise different keys, up to all
`1024` of them, are all still hits with their values afterwards. -/
theorem chunk_slots_of_region {V : Type} :
    (∀ c : ChunkPos, (IndexForKey 5 c : Int) = c.getLocalX * 32 + c.getLocalZ ∧
      ((PositionCache.slot 5 c).val : Int) = c.getLocalX * 32 + c.getLocalZ) ∧
    (∀ a b : ChunkPos, a ≠ b → a.getRegion = b.getRegion →
      PositionCache.slot 5 a ≠ PositionCache.slot 5 b ∧
      IndexForKey 5 a ≠ IndexForKey 5 b ∧
      ∀ (c : PositionCache ChunkPos V 5) (va vb : Option V),
        ((c.Put a va).Put b vb).Get a = some va ∧ ((c.Put a va).Put b vb).Get b = some vb) ∧
    (∀ (r : RegionPos) (puts : List (ChunkPos × Option V)) (c : PositionCache ChunkPos V 5),
      (∀ p ∈ puts, p.1.getRegion = r) → (puts.map Prod.fst).Nodup →
      ∀ p ∈ puts, (c.PutAll puts).Get p.1 = some p.2) ∧
    kNumBuckets 5 = 1024 := by
  refine ⟨fun c => ⟨IndexForKey_chunk c, IndexForKey_chunk c⟩, ?_, ?_, by decide⟩
  · intro a b hne hreg
    have hs := slot_ne_of_same_region a b hne hreg
    refine ⟨hs, fun e => hs (Fin.ext e), ?_⟩
    intro c va vb
    refine ⟨?_, PositionCache.Get_Put_eq _ _ _⟩
    rw [PositionCache.Get_Put_of_slot_ne _ _ _ _ hs]
    exact PositionCache.Get_Put_eq _ _ _
  · intro r puts c hreg hnodup
    exact PutAll_same_region r puts c hreg hnodup

theorem chunk_slots_of_region_witness :
    PositionCache.slot 5 (ChunkPos.mk (-1) (-32)) ≠ PositionCache.slot 5 (ChunkPos.mk (-32) (-1)) ∧
    (((PositionCache.fresh : PositionCache ChunkPos Nat 5).Put ⟨-1, -32⟩ (some 1)).Put
      ⟨-32, -1⟩ none).Get ⟨-1, -32⟩ = some (some 1) :=
  ⟨((@chunk_slots_of_region Nat).2.1 ⟨-1, -32⟩ ⟨-32, -1⟩ (by decide) (by decide)).1,
   (((@chunk_slots_of_region Nat).2.1 ⟨-1, -32⟩ ⟨-32, -1⟩ (by decide) (by decide)).2.2
      PositionCache.fresh (some 1) none).1⟩

namespace WorldCache

variable {RegionFile Chunk : Type}

theorem getRegion_stats (world : Collaborators RegionFile Chunk) (pos : RegionPos)
    (s : WorldCache RegionFile Chunk) :
    CacheStats.regionIncrement s.regionstats (getRegion world pos s).2.regionstats ∧
    (getRegion world pos s).2.chunkstats = s.chunkstats := by
  cases hget : s.regioncache.Get pos with
  | some v =>
    rw [getRegion_hit world pos s v hget]
    exact ⟨Or.inl rfl, rfl⟩
  | none =>
    cases hw : world.World_getRegion pos with
    | none =>
      rw [getRegion_absent world pos s hget hw]
      exact ⟨Or.inr (Or.inr (Or.inl rfl)), rfl⟩
    | some raw =>
      cases hr : world.RegionFile_read raw with
      | none =>
        rw [getRegion_invalid world pos s raw hget hw hr]
        exact ⟨Or.inr (Or.inr (Or.inr rfl)), rfl⟩
      | some region =>
        rw [getRegion_loaded world pos s raw region hget hw hr]
        exact ⟨Or.inr (Or.inl rfl), rfl⟩

theorem getChunk_stats (world : Collaborators RegionFile Chunk) (pos : ChunkPos)
    (s : WorldCache RegionFile Chunk) :
    CacheStats.chunkIncrement s.chunkstats (getChunk world pos s).2.chunkstats ∧
    ((s.chunkcache.Get pos ≠ none ∧ (getChunk world pos s).2.regionstats = s.regionstats) ∨
     (s.chunkcache.Get pos = none ∧
      (getChunk world pos s).2.regionstats =
        (getRegion world pos.getRegion s).2.regionstats)) := by
  cases hget : s.chunkcache.Get pos with
  | some v =>
    rw [getChunk_hit world pos s v hget]
    exact ⟨Or.inl rfl, Or.inl ⟨by simp, rfl⟩⟩
  | none =>
    have hcs := (getRegion_stats world pos.getRegion s).2
    rcases hreg : getRegion world pos.getRegion s with ⟨r, s1⟩
    rw [hreg] at hcs
    simp only at hcs
    refine ⟨?_, Or.inr ⟨rfl, ?_⟩⟩
    · cases r with
      | none =>
        rw [getChunk_region_null world pos s s1 hget hreg]
        simp only
        rw [hcs]
        exact Or.inr (Or.inr (Or.inl rfl))
      | some region =>
        simp only [getChunk, hget, hreg]
        split_ifs
        · simp only
          rw [hcs]
          exact Or.inr (Or.inr (Or.inr (Or.inl rfl)))
        · simp only
          rw [hcs]
          exact Or.inr (Or.inr (Or.inr (Or.inr rfl)))
        · simp only
          rw [hcs]
          exact Or.inr (Or.inl rfl)
    · cases r with
      | none =>
        rw [getChunk_region_null world pos s s1 hget hreg]
      | some region =>
        simp only [getChunk, hget, hreg]
        split_ifs <;> rfl

theorem regionIncrement_total (a b : CacheStats) (h : CacheStats.regionIncrement a b) :
    b.regionTotal = a.regionTotal + 1 ∧ b.unavailable = a.unavailable ∧
    b.not_found = a.not_found ∧ CacheStats.le a b := by
  rcases h with h | h | h | h <;> subst h <;> refine ⟨?_, rfl, rfl, ?_⟩ <;>
    simp only [CacheStats.regionTotal, CacheStats.le] <;> omega

theorem chunkIncrement_total (a b : CacheStats) (h : CacheStats.chunkIncrement a b) :
    b.chunkTotal = a.chunkTotal + 1 ∧ b.unavailable = a.unavailable ∧ CacheStats.le a b := by
  rcases h with h | h | h | h | h <;> subst h <;> refine ⟨?_, rfl, ?_⟩ <;>
    simp only [CacheStats.chunkTotal, CacheStats.le] <;> omega

theorem CacheStats.le_refl_stats (a : CacheStats) : CacheStats.le a a :=
  ⟨le_refl _, le_refl _, le_refl _, le_refl _, le_refl _, le_refl _⟩

theorem step_stats_le (world : Collaborators RegionFile Chunk) (op : Op Chunk)
    (s : WorldCache RegionFile Chunk) :
    CacheStats.le s.regionstats (step world s op).regionstats ∧
    CacheStats.le s.chunkstats (step world s op).chunkstats := by
  have hregion : ∀ pos, CacheStats.le s.regionstats (getRegion world pos s).2.regionstats ∧
      CacheStats.le s.chunkstats (getRegion world pos s).2.chunkstats := by
    intro pos
    obtain ⟨hi, hcs⟩ := getRegion_stats world pos s
    rw [hcs]
    exact ⟨(regionIncrement_total _ _ hi).2.2.2, CacheStats.le_refl_stats _⟩
  have hchunk : ∀ pos, CacheStats.le s.regionstats (getChunk world pos s).2.regionstats ∧
      CacheStats.le s.chunkstats (getChunk world pos s).2.chunkstats := by
    intro pos
    obtain ⟨hc, hr⟩ := getChunk_stats world pos s
    refine ⟨?_, (chunkIncrement_total _ _ hc).2.2⟩
    rcases hr with ⟨_, hreg⟩ | ⟨_, hreg⟩
    · rw [hreg]
      exact CacheStats.le_refl_stats _
    · rw [hreg]
      exact (hregion pos.getRegion).1
  cases op with
  | getRegion pos => exact hregion pos
  | getChunk pos => exact hchunk pos
  | getBlock pos chunk get =>
    show CacheStats.le s.regionstats (getBlock world pos chunk get s).2.regionstats ∧
      CacheStats.le s.chunkstats (getBlock world pos chunk get s).2.chunkstats
    rcases getBlock_state world pos chunk get s with e | e
    · rw [e]
      exact ⟨CacheStats.le_refl_stats _, CacheStats.le_refl_stats _⟩
    · rw [e]
      exact hchunk _

end WorldCache
end mapcrafter.mc
